import Mathlib

/-!
Verification of the todoist-deepsync task pipeline.

This file gives a shallow embedding, in Lean 4, of the pure core of the
plugin: the task data model (`src/types.ts`), the Sync-API item mapper
`syncItemToTask` and the client-side filter engine `applyFilter`
(`src/todoistApi.ts`), the query parser `parseTodoistQuery`
(`src/parseQuery.ts`), and the tree builder `buildTaskTree`
(`src/taskTree.ts`).  Each definition is translated from the TypeScript
source; modelling decisions (JavaScript truthiness, `Date` semantics,
regex backtracking, the stable `Array.prototype.sort`) are recorded in
the doc comments of the corresponding definitions.  The theorems at the
end of the file settle the specification claims about this code.
-/

namespace TodoistDeepsync

/-! ## Data model (src/types.ts) -/

/-- The `due` record of a `TodoistTask`: `date` is required (the mapper
fills `""` when absent), `datetime` and the display `string` are
optional. -/
structure DueDate where
  date : String
  datetime : Option String
  string : Option String
deriving DecidableEq

/-- Canonical task shape (`TodoistTask` in `src/types.ts`).  Fields typed
`string | null` in TypeScript become `Option String` (`none` = `null`);
numbers that are integral in the API (`order`, `priority`) become `Int`.
The `deadline : unknown | null` field is modelled as `Option Unit`. -/
structure TodoistTask where
  id : String
  content : String
  description : String
  is_completed : Bool
  order : Int
  priority : Int
  project_id : String
  labels : List String
  due : Option DueDate
  deadline : Option Unit
  section_id : Option String
  parent_id : Option String
  creator_id : String
  created_at : String
  assignee_id : Option String
  assigner_id : Option String
  url : String
deriving DecidableEq

/-- Tree node (`TaskNode` in `src/types.ts`): one task plus an ordered
list of child nodes. -/
inductive TaskNode where
  | mk (task : TodoistTask) (children : List TaskNode)

/-- The task stored in a node. -/
def TaskNode.task : TaskNode → TodoistTask
  | .mk t _ => t

/-- The children list of a node. -/
def TaskNode.children : TaskNode → List TaskNode
  | .mk _ c => c

/-! ## String helpers modelling the JavaScript primitives

The source operates on JavaScript strings with `trim`, `toLowerCase`,
`split`, `includes` and regular expressions.  We model strings by their
character lists.  `trim` and the regex class `\s` are modelled by the
ASCII whitespace class (the Unicode space characters JavaScript also
accepts do not occur in the inputs of interest); `toLowerCase` is
modelled by the ASCII `Char.toLower`, which agrees with JavaScript on
the basic latin range. -/

/-- ASCII part of the JavaScript whitespace class (used by `trim` and by
the regex class `\s`). -/
def jsSpace (c : Char) : Bool :=
  c == ' ' || c == '\t' || c == '\n' || c == '\r' || c == '\x0b' || c == '\x0c'

/-- Model of `String.prototype.trim`. -/
def jsTrim (s : String) : String :=
  String.mk (((s.data.dropWhile jsSpace).reverse.dropWhile jsSpace).reverse)

/-- Model of `String.prototype.toLowerCase` (ASCII range). -/
def jsToLower (s : String) : String :=
  String.mk (s.data.map Char.toLower)

/-- Model of `String.prototype.includes` with a one-character needle. -/
def hasChar (s : String) (c : Char) : Bool :=
  s.data.contains c

/-- Model of `String.prototype.split` with a one-character separator:
always returns a non-empty list of (possibly empty) segments. -/
def splitOnChar (sep : Char) : List Char → List (List Char)
  | [] => [[]]
  | x :: xs =>
    match splitOnChar sep xs with
    | [] => [[]]
    | h :: t => if x == sep then [] :: h :: t else (x :: h) :: t

/-! ## Day arithmetic modelling the JavaScript Date, at day granularity

`parseDueDate` in `src/todoistApi.ts` turns a task's due string into
`new Date(dateOnly + "T00:00:00")`, i.e. local midnight of a calendar
day, and the predicates `isToday` / `isOverdue` / `isTomorrow` compare
such dates after zeroing the time-of-day.  We model a calendar day by
its serial day number (the standard civil-from-days algorithm, shifted
by 400 years so that the computation stays in `Nat` for the four-digit
years the regex admits); consecutive calendar days get consecutive
numbers, so "same day", "before" and "next day" become `=`, `<` and
`+ 1` on day numbers.  The current day (`new Date()` at local midnight)
becomes an explicit `today : Nat` parameter. -/

/-- Gregorian leap-year test. -/
def isLeap (y : Nat) : Bool :=
  y % 4 == 0 && (y % 100 != 0 || y % 400 == 0)

/-- Number of days in month `m` of year `y`. -/
def monthLen (y m : Nat) : Nat :=
  if m == 2 then (if isLeap y then 29 else 28)
  else if m == 4 || m == 6 || m == 9 || m == 11 then 30
  else 31

/-- Serial day number of the civil date `y-m-d` (Hinnant's
days-from-civil algorithm, shifted by 400 years to stay in `Nat`). -/
def daysFromCivil (y m d : Nat) : Nat :=
  let ys := y + 400 - (if m ≤ 2 then 1 else 0)
  let era := ys / 400
  let yoe := ys % 400
  let mp := if m > 2 then m - 3 else m + 9
  let doy := (153 * mp + 2) / 5 + (d - 1)
  let doe := yoe * 365 + yoe / 4 - yoe / 100 + doy
  era * 146097 + doe

/-- Numeric value of a run of ASCII digits. -/
def digitsVal (cs : List Char) : Nat :=
  cs.foldl (fun acc c => 10 * acc + (c.toNat - 48)) 0

/-- Model of the regex test `/^\d{4}-\d{2}-\d{2}$/` plus extraction of
the three numeric fields: `some (y, m, d)` exactly when the string is
ten characters `dddd-dd-dd`. -/
def ymdParse (s : String) : Option (Nat × Nat × Nat) :=
  match s.data with
  | [y1, y2, y3, y4, h1, m1, m2, h2, d1, d2] =>
    if y1.isDigit && y2.isDigit && y3.isDigit && y4.isDigit && h1 == '-' &&
        m1.isDigit && m2.isDigit && h2 == '-' && d1.isDigit && d2.isDigit then
      some (digitsVal [y1, y2, y3, y4], digitsVal [m1, m2], digitsVal [d1, d2])
    else none
  | _ => none

/-- Model of `new Date(s + "T00:00:00")` for a string `s` that passed
the `/^\d{4}-\d{2}-\d{2}$/` test, at day granularity.  JavaScript
yields `Invalid Date` when the syntactically valid fields are out of
calendar range (month 13, Feb 30, day 00, ...); every comparison of an
`Invalid Date` (its time value is `NaN`) is false, so a task holding
one never matches any predicate — we model it as `none`. -/
def dayFromString (s : String) : Option Nat :=
  match ymdParse s with
  | none => none
  | some (y, m, d) =>
    if 1 ≤ m && m ≤ 12 && 1 ≤ d && d ≤ monthLen y m then
      some (daysFromCivil y m d)
    else none

/-! ## Filter engine (src/todoistApi.ts, `parseDueDate` and `applyFilter`) -/

/-- Model of `parseDueDate` (src/todoistApi.ts lines 115-123): resolve a
task's due date to a day number.  `task.due.datetime || task.due.date`
is JavaScript `||`, which falls through on the empty string; the date
part of a string containing `"T"` is its first `"T"`-segment; the
result must pass the strict `YYYY-MM-DD` test. -/
def parseDueDate (t : TodoistTask) : Option Nat :=
  match t.due with
  | none => none
  | some due =>
    let dateStr := match due.datetime with
      | some s => if s == "" then due.date else s
      | none => due.date
    if dateStr == "" then none
    else
      let dateOnly :=
        if hasChar dateStr 'T' then String.mk ((splitOnChar 'T' dateStr.data).headD [])
        else dateStr
      dayFromString dateOnly

/-- Model of `isToday`: the two dates, compared at day granularity,
coincide. -/
def isToday (d today : Nat) : Bool := d == today

/-- Model of `isOverdue`: the date lies strictly before the current
day. -/
def isOverdue (d today : Nat) : Bool := d < today

/-- Model of `isTomorrow`: the date is the day after the current day. -/
def isTomorrow (d today : Nat) : Bool := d == today + 1

/-- The predicate applied to each trimmed part of a compound filter
expression (the `parts.some` / `parts.every` callback bodies in
`applyFilter`): a part matches only if it is one of the three
recognized keywords and the corresponding date predicate holds. -/
def matchFilterPart (p : String) (d today : Nat) : Bool :=
  if p == "today" then isToday d today
  else if p == "overdue" then isOverdue d today
  else if p == "tomorrow" then isTomorrow d today
  else false

/-- Model of `applyFilter` (src/todoistApi.ts lines 154-216).  The
current local day enters as the explicit parameter `today`.  Branch
structure follows the source: the three atomic keywords, then the
`"|"` (OR) split, then the `"&"` (AND) split, then the identity
fallback.  In every date branch a task whose due date does not resolve
(`parseDueDate` returns `none`) is excluded. -/
def applyFilter (tasks : List TodoistTask) (filter : String) (today : Nat) : List TodoistTask :=
  let filterLower := jsToLower (jsTrim filter)
  if filterLower == "today" then
    tasks.filter (fun t =>
      match parseDueDate t with
      | none => false
      | some d => isToday d today)
  else if filterLower == "overdue" then
    tasks.filter (fun t =>
      match parseDueDate t with
      | none => false
      | some d => isOverdue d today)
  else if filterLower == "tomorrow" then
    tasks.filter (fun t =>
      match parseDueDate t with
      | none => false
      | some d => isTomorrow d today)
  else if hasChar filterLower '|' then
    let parts := (splitOnChar '|' filterLower.data).map (fun cs => jsTrim (String.mk cs))
    tasks.filter (fun t =>
      match parseDueDate t with
      | none => false
      | some d => parts.any (fun p => matchFilterPart p d today))
  else if hasChar filterLower '&' then
    let parts := (splitOnChar '&' filterLower.data).map (fun cs => jsTrim (String.mk cs))
    tasks.filter (fun t =>
      match parseDueDate t with
      | none => false
      | some d => parts.all (fun p => matchFilterPart p d today))
  else tasks

/-! ## Sample data used by the witnesses -/

/-- Sample day number: 2024-05-02. -/
def sampleDay : Nat := daysFromCivil 2024 5 2

/-- Sample task with a date-only due string. -/
def taskDueOn (i : String) (s : String) : TodoistTask :=
  ⟨i, "t", "", false, 0, 1, "p1", [], some ⟨s, none, none⟩, none, none, none, "", "", none, none, ""⟩

/-- Sample task without a due record. -/
def taskNoDue (i : String) : TodoistTask :=
  ⟨i, "t", "", false, 0, 1, "p1", [], none, none, none, none, "", "", none, none, ""⟩

/-! ## Claims about the filter engine -/

/-- Claim C2: for every task list, `applyFilter` with an expression whose
trimmed, lower-cased form is `"today"`, `"overdue"` or `"tomorrow"`
returns exactly the tasks whose resolved due date equals the current
local day, lies strictly before it, or equals the current local day
plus one, respectively; and every task whose due date is unresolvable
(`parseDueDate` returns `none`) is excluded from each of these
predicates. -/
theorem c2_applyFilter_atomic (tasks : List TodoistTask) (e : String) (today : Nat) :
    (jsToLower (jsTrim e) = "today" →
      applyFilter tasks e today = tasks.filter (fun t =>
        match parseDueDate t with
        | none => false
        | some d => isToday d today)) ∧
    (jsToLower (jsTrim e) = "overdue" →
      applyFilter tasks e today = tasks.filter (fun t =>
        match parseDueDate t with
        | none => false
        | some d => isOverdue d today)) ∧
    (jsToLower (jsTrim e) = "tomorrow" →
      applyFilter tasks e today = tasks.filter (fun t =>
        match parseDueDate t with
        | none => false
        | some d => isTomorrow d today)) ∧
    (∀ t ∈ tasks, parseDueDate t = none →
      (jsToLower (jsTrim e) = "today" ∨ jsToLower (jsTrim e) = "overdue" ∨
        jsToLower (jsTrim e) = "tomorrow") →
      t ∉ applyFilter tasks e today) := by
  have htoday : jsToLower (jsTrim e) = "today" →
      applyFilter tasks e today = tasks.filter (fun t =>
        match parseDueDate t with
        | none => false
        | some d => isToday d today) := by
    intro h; simp only [applyFilter]; rw [h]; rfl
  have hover : jsToLower (jsTrim e) = "overdue" →
      applyFilter tasks e today = tasks.filter (fun t =>
        match parseDueDate t with
        | none => false
        | some d => isOverdue d today) := by
    intro h; simp only [applyFilter]; rw [h]; rfl
  have htom : jsToLower (jsTrim e) = "tomorrow" →
      applyFilter tasks e today = tasks.filter (fun t =>
        match parseDueDate t with
        | none => false
        | some d => isTomorrow d today) := by
    intro h; simp only [applyFilter]; rw [h]; rfl
  refine ⟨htoday, hover, htom, ?_⟩
  intro t _ hnone hcase
  rcases hcase with h | h | h
  · rw [htoday h]; intro hmem
    have hp := (List.mem_filter.mp hmem).2
    rw [hnone] at hp; exact absurd hp (by simp)
  · rw [hover h]; intro hmem
    have hp := (List.mem_filter.mp hmem).2
    rw [hnone] at hp; exact absurd hp (by simp)
  · rw [htom h]; intro hmem
    have hp := (List.mem_filter.mp hmem).2
    rw [hnone] at hp; exact absurd hp (by simp)

/-- Witness for C2 at a concrete input: the expression `" Today "`
trims and lower-cases to `"today"` and selects exactly the task due on
the current day. -/
theorem c2_applyFilter_atomic_witness :
    jsToLower (jsTrim " Today ") = "today" ∧
    applyFilter [taskDueOn "a" "2024-05-02", taskNoDue "b"] " Today " sampleDay =
      List.filter (fun t =>
        match parseDueDate t with
        | none => false
        | some d => isToday d sampleDay) [taskDueOn "a" "2024-05-02", taskNoDue "b"] :=
  ⟨by decide,
    (c2_applyFilter_atomic [taskDueOn "a" "2024-05-02", taskNoDue "b"] " Today " sampleDay).1
      (by decide)⟩

/-- Claim C3: for every task list and every expression containing `'|'`,
`applyFilter` splits the (trimmed, lower-cased) expression on `'|'`,
trims each part, and keeps exactly the tasks with a resolvable due date
satisfying at least one recognized part; an unrecognized part never
matches.  The equality holds whether or not the expression also
contains `'&'`, so an expression with both operators is parsed solely
as an OR-split. -/
theorem c3_applyFilter_or (tasks : List TodoistTask) (e : String) (today : Nat) :
    (hasChar (jsToLower (jsTrim e)) '|' = true →
      applyFilter tasks e today = tasks.filter (fun t =>
        match parseDueDate t with
        | none => false
        | some d =>
          (((splitOnChar '|' (jsToLower (jsTrim e)).data)).map
            (fun cs => jsTrim (String.mk cs))).any (fun p => matchFilterPart p d today))) ∧
    (∀ p d td, p ≠ "today" → p ≠ "overdue" → p ≠ "tomorrow" →
      matchFilterPart p d td = false) := by
  constructor
  · intro h
    have h1 : jsToLower (jsTrim e) ≠ "today" := by
      intro he; rw [he] at h; exact absurd h (by decide)
    have h2 : jsToLower (jsTrim e) ≠ "overdue" := by
      intro he; rw [he] at h; exact absurd h (by decide)
    have h3 : jsToLower (jsTrim e) ≠ "tomorrow" := by
      intro he; rw [he] at h; exact absurd h (by decide)
    simp only [applyFilter, beq_iff_eq]
    rw [if_neg h1, if_neg h2, if_neg h3, if_pos h]
  · intro p d td hp1 hp2 hp3
    simp only [matchFilterPart, beq_iff_eq]
    rw [if_neg hp1, if_neg hp2, if_neg hp3]

/-- Witness for C3 at a concrete input: `"today | overdue"` contains
`'|'` and the OR-split equality holds for a concrete task list. -/
theorem c3_applyFilter_or_witness :
    hasChar (jsToLower (jsTrim "today | overdue")) '|' = true ∧
    applyFilter [taskDueOn "a" "2024-05-01", taskNoDue "b"] "today | overdue" sampleDay =
      List.filter (fun t =>
        match parseDueDate t with
        | none => false
        | some d =>
          (((splitOnChar '|' (jsToLower (jsTrim "today | overdue")).data)).map
            (fun cs => jsTrim (String.mk cs))).any (fun p => matchFilterPart p d sampleDay))
        [taskDueOn "a" "2024-05-01", taskNoDue "b"] :=
  ⟨by decide,
    (c3_applyFilter_or [taskDueOn "a" "2024-05-01", taskNoDue "b"] "today | overdue" sampleDay).1
      (by decide)⟩

/-- Claim C9: for every task list and every expression matching none of
the atomic or compound forms, `applyFilter` returns the input list
unchanged — a defined no-op fallback. -/
theorem c9_applyFilter_noop (tasks : List TodoistTask) (e : String) (today : Nat)
    (h1 : jsToLower (jsTrim e) ≠ "today") (h2 : jsToLower (jsTrim e) ≠ "overdue")
    (h3 : jsToLower (jsTrim e) ≠ "tomorrow")
    (h4 : hasChar (jsToLower (jsTrim e)) '|' = false)
    (h5 : hasChar (jsToLower (jsTrim e)) '&' = false) :
    applyFilter tasks e today = tasks := by
  simp only [applyFilter, beq_iff_eq]
  rw [if_neg h1, if_neg h2, if_neg h3, if_neg (by simp [h4]), if_neg (by simp [h5])]

/-- Witness for C9 at the concrete input `"#Work"` of the claim: no
predicate matches and the list comes back unchanged. -/
theorem c9_applyFilter_noop_witness :
    jsToLower (jsTrim "#Work") ≠ "today" ∧
    applyFilter [taskDueOn "a" "2024-05-02", taskNoDue "b"] "#Work" sampleDay =
      [taskDueOn "a" "2024-05-02", taskNoDue "b"] :=
  ⟨by decide,
    c9_applyFilter_noop [taskDueOn "a" "2024-05-02", taskNoDue "b"] "#Work" sampleDay
      (by decide) (by decide) (by decide) (by decide) (by decide)⟩

/-- Claim C10: for every task list and every filter expression, the
output of `applyFilter` is a subsequence of the input list: surviving
tasks keep their relative order, none is duplicated, and none is
invented. -/
theorem c10_applyFilter_sublist (tasks : List TodoistTask) (e : String) (today : Nat) :
    List.Sublist (applyFilter tasks e today) tasks := by
  simp only [applyFilter]
  split_ifs <;> first
    | exact List.filter_sublist _
    | exact List.Sublist.refl _

/-! ## Task mapper (src/todoistApi.ts, `syncItemToTask`)

A raw Sync-API item.  A TypeScript field declared `x?: T` can be
missing; one declared `x?: T | null` can be missing or `null`.  We
model a missing field as the outer `none` and a `null` value as
`some none`, so `x?: string | null` becomes `Option (Option String)`
and `x?: boolean` becomes `Option Bool`. -/
structure SyncDue where
  date : Option String
  datetime : Option String
  string : Option String
deriving DecidableEq

/-- Raw Sync-API item (`SyncItem` in src/todoistApi.ts). -/
structure SyncItem where
  id : String
  content : String
  project_id : String
  completed : Option Bool
  checked : Option Bool
  parent_id : Option (Option String)
  priority : Option Int
  item_order : Option Int
  due : Option (Option SyncDue)
  section_id : Option (Option String)
  child_order : Option Int
  day_order : Option Int
  responsible_uid : Option (Option String)
  assignee_id : Option (Option String)
  date_added : Option String
  date_completed : Option (Option String)
  labels : Option (List String)
deriving DecidableEq

/-- Model of `syncItemToTask` (src/todoistApi.ts lines 77-104).
JavaScript `a ?? b` falls through on `null` and `undefined` only, so it
becomes `Option.getD` on a missing-only field and `Option.join`
(composed with a fallback) on a missing-or-null field; the ternary
`item.due ? ... : null` tests object truthiness, which is false exactly
for `null`/missing. -/
def syncItemToTask (item : SyncItem) : TodoistTask :=
  ⟨item.id,
    item.content,
    "",
    item.completed == some true || item.checked == some true,
    item.item_order.getD (item.child_order.getD 0),
    item.priority.getD 1,
    item.project_id,
    item.labels.getD [],
    (match item.due with
      | some (some d) => some ⟨d.date.getD "", d.datetime, d.string⟩
      | _ => none),
    none,
    item.section_id.join,
    item.parent_id.join,
    "",
    item.date_added.getD "",
    (match item.assignee_id.join with
      | some a => some a
      | none => item.responsible_uid.join),
    none,
    "https://app.todoist.com/showTask?id=" ++ item.id⟩

/-- Claim C8: `syncItemToTask` sets the completion flag iff `completed`
or the legacy `checked` raw flag is true; `order` is the first present
of `item_order` and `child_order`, defaulting to 0; `priority` defaults
to 1; the due record is built only from a present raw due object, with
its date component defaulting to `""`; and `section_id` / `parent_id`
are absent — not the empty string — when the raw field is null or
missing. -/
theorem c8_syncItemToTask_fields (item : SyncItem) :
    ((syncItemToTask item).is_completed = true ↔
      (item.completed = some true ∨ item.checked = some true)) ∧
    (∀ o, item.item_order = some o → (syncItemToTask item).order = o) ∧
    (item.item_order = none → ∀ o, item.child_order = some o →
      (syncItemToTask item).order = o) ∧
    (item.item_order = none → item.child_order = none →
      (syncItemToTask item).order = 0) ∧
    (item.priority = none → (syncItemToTask item).priority = 1) ∧
    ((item.due = none ∨ item.due = some none) → (syncItemToTask item).due = none) ∧
    (∀ d, item.due = some (some d) →
      (syncItemToTask item).due = some ⟨d.date.getD "", d.datetime, d.string⟩) ∧
    ((item.section_id = none ∨ item.section_id = some none) →
      (syncItemToTask item).section_id = none) ∧
    ((item.parent_id = none ∨ item.parent_id = some none) →
      (syncItemToTask item).parent_id = none) := by
  refine ⟨?_, ?_, ?_, ?_, ?_, ?_, ?_, ?_, ?_⟩
  · simp [syncItemToTask]
  · intro o h; simp [syncItemToTask, h]
  · intro h o h'; simp [syncItemToTask, h, h']
  · intro h h'; simp [syncItemToTask, h, h']
  · intro h; simp [syncItemToTask, h]
  · rintro (h | h) <;> simp [syncItemToTask, h]
  · intro d h; simp [syncItemToTask, h]
  · rintro (h | h) <;> simp [syncItemToTask, h]
  · rintro (h | h) <;> simp [syncItemToTask, h]

/-- Sample raw item with `item_order` present. -/
def sampleItemA : SyncItem :=
  ⟨"1", "A", "p1", some true, none, none, some 3, some 5, none, none, some 9, none,
    none, none, some "2024-01-01", none, some ["l"]⟩

/-- Sample raw item exercising the fallbacks: no `item_order`, legacy
`checked`, null due, null section, missing parent. -/
def sampleItemB : SyncItem :=
  ⟨"2", "B", "p1", none, some true, none, none, none, some none, some none, some 7, none,
    none, none, none, none, none⟩

/-- Witness for C8: the field equations of the claim, discharged at the
two concrete raw items. -/
theorem c8_syncItemToTask_fields_witness :
    (syncItemToTask sampleItemA).order = 5 ∧
    (syncItemToTask sampleItemB).order = 7 ∧
    (syncItemToTask sampleItemB).priority = 1 ∧
    (syncItemToTask sampleItemB).due = none ∧
    (syncItemToTask sampleItemB).section_id = none ∧
    (syncItemToTask sampleItemB).parent_id = none ∧
    (syncItemToTask sampleItemB).is_completed = true :=
  ⟨(c8_syncItemToTask_fields sampleItemA).2.1 5 (by decide),
    (c8_syncItemToTask_fields sampleItemB).2.2.1 (by decide) 7 (by decide),
    (c8_syncItemToTask_fields sampleItemB).2.2.2.2.1 (by decide),
    (c8_syncItemToTask_fields sampleItemB).2.2.2.2.2.1 (Or.inr (by decide)),
    (c8_syncItemToTask_fields sampleItemB).2.2.2.2.2.2.2.1 (Or.inr (by decide)),
    (c8_syncItemToTask_fields sampleItemB).2.2.2.2.2.2.2.2 (Or.inl (by decide)),
    ((c8_syncItemToTask_fields sampleItemB).1).mpr (Or.inr (by decide))⟩

/-! ## Query parser (src/parseQuery.ts)

`parseTodoistQuery` trims its input and then tries, in order, the
case-insensitive anchored regexes

  1. `/^\s*filter\s*:\s*["']?([^"'\n]+)["']?$/i`  then
     `/^\s*filter\s+([^\n]+)$/i`
  2. `/^\s*project\s*:\s*(\S+)$/i`  then  `/^\s*project\s+(\S+)$/i`
  3. `/^\s*section\s*:\s*(\S+)$/i`  then  `/^\s*section\s+(\S+)$/i`
  4. `/^\d+$/`

falling back to treating the whole line as a filter string.  The
matchers below implement these regexes, with JavaScript's greedy
backtracking semantics, in the deterministic form one obtains by
analysing which backtracking branches can succeed.  The analysis
uses only one fact about the surrounding call: each quantifier is
tried longest-first, and the first overall success wins. -/

/-- The regex class `["']`. -/
def isQuote (c : Char) : Bool := c == '"' || c == '\''

/-- The regex class `[^"'\n]`. -/
def valueChar (c : Char) : Bool := !isQuote c && c != '\n'

/-- Case-insensitive match of a literal ASCII keyword at the head of the
input; the keyword is given as its list of (lower, upper) character
pairs, since under the `/i` flag an ASCII letter of the pattern matches
exactly its two casings.  Returns the remainder of the input. -/
def stripKeyword : List (Char × Char) → List Char → Option (List Char)
  | [], rest => some rest
  | _ :: _, [] => none
  | (lo, hi) :: ks, c :: cs => if c == lo || c == hi then stripKeyword ks cs else none

/-- Does a character list spell the given keyword, case-insensitively? -/
def kwMatches : List (Char × Char) → List Char → Bool
  | [], [] => true
  | (lo, hi) :: ks, c :: cs => (c == lo || c == hi) && kwMatches ks cs
  | _, _ => false

/-- The keyword `filter` of the query mini-language. -/
def keywordFilter : List (Char × Char) :=
  [('f', 'F'), ('i', 'I'), ('l', 'L'), ('t', 'T'), ('e', 'E'), ('r', 'R')]

/-- The keyword `project` of the query mini-language. -/
def keywordProject : List (Char × Char) :=
  [('p', 'P'), ('r', 'R'), ('o', 'O'), ('j', 'J'), ('e', 'E'), ('c', 'C'), ('t', 'T')]

/-- The keyword `section` of the query mini-language. -/
def keywordSection : List (Char × Char) :=
  [('s', 'S'), ('e', 'E'), ('c', 'C'), ('t', 'T'), ('i', 'I'), ('o', 'O'), ('n', 'N')]

/-- Match `([^"'\n]+)["']?$` and return the capture.  The capture group
is greedy, so it takes the maximal run of `valueChar`s; shrinking it
ever leaves a `valueChar` that neither the optional quote nor the
anchor can consume, so only the maximal run matters: the run must be
non-empty and be followed by nothing or by a single quote. -/
def valueTail (cs : List Char) : Option (List Char) :=
  let run := cs.takeWhile valueChar
  let rest := cs.dropWhile valueChar
  if run.isEmpty then none
  else
    match rest with
    | [] => some run
    | [c] => if isQuote c then some run else none
    | _ => none

/-- Match `\s*["']?([^"'\n]+)["']?$` (the part of the filter colon form
after the colon) and return the capture.  The leading `\s*` first takes
the maximal whitespace run `w`; if the remainder starts with a quote
the optional quote consumes it and `valueTail` decides the rest.
Should that fail, the regex engine gives characters of `w` back one at
a time; such a retry can only succeed when the remainder is exactly one
quote (whitespace is a `valueChar`, so the capture then swallows the
returned space and the quote becomes the trailing optional quote),
which captures the single returned character — unless that character is
a newline, which no later part of the pattern can consume.  When the
remainder is empty the same give-back applies with the lone returned
character as capture. -/
def colonValue (s : List Char) : Option (List Char) :=
  let w := s.takeWhile jsSpace
  let rest := s.dropWhile jsSpace
  match rest with
  | [] =>
    if !w.isEmpty && w.getLast? != some '\n' then (w.getLast?).map (fun x => [x])
    else none
  | c :: tail =>
    if isQuote c then
      match valueTail tail with
      | some v => some v
      | none =>
        if tail.isEmpty && !w.isEmpty && w.getLast? != some '\n' then
          (w.getLast?).map (fun x => [x])
        else none
    else valueTail rest

/-- Match `\s*(\S+)$` (the part of the project / section colon form
after the colon) and return the capture: after the maximal whitespace
run the whole remainder must be a non-empty run without whitespace.
Giving whitespace back from `\s*` cannot help since `\S` refuses it. -/
def tokenValue (s : List Char) : Option (List Char) :=
  let rest := s.dropWhile jsSpace
  if rest.isEmpty then none
  else if rest.any jsSpace then none
  else some rest

/-- Match `\s+(\S+)$` (the project / section space form after the
keyword): at least one whitespace character, then a single token to the
end of the line. -/
def tokenAfterSpaces (s : List Char) : Option (List Char) :=
  match s with
  | c :: _ => if jsSpace c then tokenValue s else none
  | [] => none

/-- Match `\s+([^\n]+)$` (the filter space form after the keyword) and
return the capture: at least one whitespace character, then everything
to the end of the line, which must be non-empty and contain no newline
(a newline inside the remainder blocks the anchor whatever `\s+`
consumed).  When the remainder after the maximal whitespace run is
empty, giving back one character succeeds exactly when that character
is not a newline, capturing it alone. -/
def spaceFormValue (s : List Char) : Option (List Char) :=
  match s with
  | c :: _ =>
    if jsSpace c then
      let rest := s.dropWhile jsSpace
      if rest.isEmpty then
        if s.length ≥ 2 && s.getLast? != some '\n' then (s.getLast?).map (fun x => [x])
        else none
      else if rest.contains '\n' then none
      else some rest
    else none
  | [] => none

/-- The two filter directives (colon form, then space form), applied to
the trimmed line. -/
def matchFilterDirective (cs : List Char) : Option (List Char) :=
  match stripKeyword keywordFilter (cs.dropWhile jsSpace) with
  | none => none
  | some s2 =>
    let r := s2.dropWhile jsSpace
    if r.headD '\x00' == ':' then
      match colonValue r.tail with
      | some v => some v
      | none => spaceFormValue s2
    else spaceFormValue s2

/-- The two project / section directives (colon form, then space form),
applied to the trimmed line. -/
def matchKeyTokenDirective (kw : List (Char × Char)) (cs : List Char) : Option (List Char) :=
  match stripKeyword kw (cs.dropWhile jsSpace) with
  | none => none
  | some s2 =>
    let r := s2.dropWhile jsSpace
    if r.headD '\x00' == ':' then
      match tokenValue r.tail with
      | some v => some v
      | none => tokenAfterSpaces s2
    else tokenAfterSpaces s2

/-- Parsed query (`TodoistQuery` in src/types.ts). -/
structure TodoistQuery where
  projectId : Option String
  sectionId : Option String
  filter : Option String
deriving DecidableEq

/-- Model of `parseTodoistQuery` (src/parseQuery.ts lines 11-49): trim;
empty input gives the empty query; otherwise try the filter, project
and section directives in order (each captured value is trimmed, as in
the source), then the all-digits project-id line, then fall back to the
whole trimmed line as a filter string. -/
def parseTodoistQuery (source : String) : TodoistQuery :=
  let line := jsTrim source
  let cs := line.data
  if cs.isEmpty then ⟨none, none, none⟩
  else
    match matchFilterDirective cs with
    | some v => ⟨none, none, some (jsTrim (String.mk v))⟩
    | none =>
      match matchKeyTokenDirective keywordProject cs with
      | some v => ⟨some (jsTrim (String.mk v)), none, none⟩
      | none =>
        match matchKeyTokenDirective keywordSection cs with
        | some v => ⟨none, some (jsTrim (String.mk v)), none⟩
        | none =>
          if cs.all Char.isDigit then ⟨some line, none, none⟩
          else ⟨none, none, some line⟩

/-! ## Helper lemmas for the query-parser claims -/

theorem dropWhile_jsSpace_eq_self : ∀ (l : List Char), jsSpace (l.headD 'x') = false →
    l.dropWhile jsSpace = l
  | [], _ => rfl
  | c :: t, h => by
    simp only [List.headD_cons] at h
    simp [List.dropWhile_cons, h]

theorem headD_reverse (l : List Char) (d : Char) : l.reverse.headD d = l.getLastD d := by
  simp [List.headD_eq_head?_getD, List.head?_reverse, List.getLastD_eq_getLast?]

theorem jsTrim_id_of_ends (s : String) (h1 : jsSpace (s.data.headD 'x') = false)
    (h2 : jsSpace (s.data.getLastD 'x') = false) : jsTrim s = s := by
  cases s with
  | mk l =>
    simp only [jsTrim]
    rw [dropWhile_jsSpace_eq_self l h1]
    rw [dropWhile_jsSpace_eq_self l.reverse (by rw [headD_reverse]; exact h2)]
    simp

theorem jsTrim_id_of_all (s : String) (h : ∀ c ∈ s.data, jsSpace c = false) : jsTrim s = s := by
  apply jsTrim_id_of_ends
  · cases hd : s.data with
    | nil => decide
    | cons c t => exact List.headD_cons .. ▸ h c (hd ▸ List.mem_cons_self c t)
  · cases hd : s.data with
    | nil => decide
    | cons c t =>
      have hmem : (c :: t).getLastD 'x' ∈ c :: t := by
        rw [List.getLastD_eq_getLast?, List.getLast?_eq_getLast _ (by simp)]
        exact List.getLast_mem _
      exact h _ (hd ▸ hmem)

theorem kwMatches_head (lo hi : Char) (ps : List (Char × Char)) (l : List Char)
    (h : kwMatches ((lo, hi) :: ps) l = true) :
    ∃ c cs, l = c :: cs ∧ (c == lo || c == hi) = true ∧ kwMatches ps cs = true := by
  cases l with
  | nil => simp [kwMatches] at h
  | cons c cs =>
    simp only [kwMatches, Bool.and_eq_true] at h
    exact ⟨c, cs, rfl, h.1, h.2⟩

theorem kwMatches_nonspace : ∀ (ps : List (Char × Char)) (l : List Char),
    (∀ p ∈ ps, jsSpace p.1 = false ∧ jsSpace p.2 = false) →
    kwMatches ps l = true → ∀ c ∈ l, jsSpace c = false
  | [], l, _, h => by
    cases l with
    | nil => intro c hc; simp at hc
    | cons c cs => simp [kwMatches] at h
  | (lo, hi) :: ks, l, hps, h => by
    obtain ⟨c, cs, rfl, hc, hrest⟩ := kwMatches_head lo hi ks l h
    intro d hd
    rcases List.mem_cons.mp hd with rfl | hd
    · rcases Bool.or_eq_true_iff.mp hc with hc | hc
      · exact (beq_iff_eq.mp hc) ▸ (hps (lo, hi) (List.mem_cons_self ..)).1
      · exact (beq_iff_eq.mp hc) ▸ (hps (lo, hi) (List.mem_cons_self ..)).2
    · exact kwMatches_nonspace ks cs (fun p hp => hps p (List.mem_cons_of_mem _ hp)) hrest d hd

theorem stripKeyword_append : ∀ (ps : List (Char × Char)) (l rest : List Char),
    kwMatches ps l = true → stripKeyword ps (l ++ rest) = some rest
  | [], l, rest, h => by
    cases l with
    | nil => rfl
    | cons c cs => simp [kwMatches] at h
  | (lo, hi) :: ks, l, rest, h => by
    obtain ⟨c, cs, rfl, hc, hrest⟩ := kwMatches_head lo hi ks l h
    simp only [List.cons_append, stripKeyword, hc, if_true]
    exact stripKeyword_append ks cs rest hrest

theorem stripKeyword_head_ne (lo hi : Char) (ps : List (Char × Char)) (c : Char)
    (cs : List Char) (h : (c == lo || c == hi) = false) :
    stripKeyword ((lo, hi) :: ps) (c :: cs) = none := by
  simp [stripKeyword, h]

theorem matchFilterDirective_head_ne (c : Char) (cs : List Char)
    (h1 : jsSpace c = false) (h2 : (c == 'f' || c == 'F') = false) :
    matchFilterDirective (c :: cs) = none := by
  simp only [matchFilterDirective, List.dropWhile_cons, h1, Bool.false_eq_true, if_false]
  rw [show keywordFilter = ('f', 'F') :: keywordFilter.tail from rfl,
    stripKeyword_head_ne _ _ _ _ _ h2]

theorem matchKeyTokenDirective_head_ne (lo hi : Char) (ps : List (Char × Char)) (c : Char)
    (cs : List Char) (h1 : jsSpace c = false) (h2 : (c == lo || c == hi) = false) :
    matchKeyTokenDirective ((lo, hi) :: ps) (c :: cs) = none := by
  simp only [matchKeyTokenDirective, List.dropWhile_cons, h1, Bool.false_eq_true, if_false]
  rw [stripKeyword_head_ne _ _ _ _ _ h2]

theorem head_nonspace_of_kwMatches (kw : List (Char × Char)) (k : String) (c0 : Char)
    (ks : List Char) (hk : kwMatches kw k.data = true) (hkd : k.data = c0 :: ks)
    (hkw : ∀ p ∈ kw, jsSpace p.1 = false ∧ jsSpace p.2 = false) : jsSpace c0 = false :=
  kwMatches_nonspace kw k.data hkw hk c0 (hkd ▸ List.mem_cons_self ..)

theorem matchKeyTokenDirective_colon (kw : List (Char × Char)) (k : String) (s4 : List Char)
    (hk : kwMatches kw k.data = true)
    (hne : jsSpace ((k.data ++ ':' :: s4).headD 'x') = false) :
    matchKeyTokenDirective kw (k.data ++ ':' :: s4) =
      match tokenValue s4 with
      | some v => some v
      | none => tokenAfterSpaces (':' :: s4) := by
  simp only [matchKeyTokenDirective]
  rw [dropWhile_jsSpace_eq_self _ hne, stripKeyword_append kw k.data _ hk]
  simp only [dropWhile_jsSpace_eq_self (':' :: s4) (by simp only [List.headD_cons]; decide)]
  all_goals simp

theorem matchFilterDirective_colon (k : String) (s4 : List Char)
    (hk : kwMatches keywordFilter k.data = true)
    (hne : jsSpace ((k.data ++ ':' :: s4).headD 'x') = false) :
    matchFilterDirective (k.data ++ ':' :: s4) =
      match colonValue s4 with
      | some v => some v
      | none => spaceFormValue (':' :: s4) := by
  simp only [matchFilterDirective]
  rw [dropWhile_jsSpace_eq_self _ hne, stripKeyword_append keywordFilter k.data _ hk]
  simp only [dropWhile_jsSpace_eq_self (':' :: s4) (by simp only [List.headD_cons]; decide)]
  all_goals simp

theorem tokenValue_of_token (n : String) (hne : n.data ≠ [])
    (hns : ∀ c ∈ n.data, jsSpace c = false) : tokenValue n.data = some n.data := by
  simp only [tokenValue]
  rw [dropWhile_jsSpace_eq_self n.data (by
    cases hd : n.data with
    | nil => exact absurd hd hne
    | cons c t => exact List.headD_cons .. ▸ hns c (hd ▸ List.mem_cons_self ..))]
  rw [if_neg (by simpa using hne), if_neg (by simp; intro x hx; simp [hns x hx])]

theorem string_data_ne_nil (n : String) (h : n ≠ "") : n.data ≠ [] := by
  intro hd
  apply h
  cases n with
  | mk l =>
    have : l = [] := hd
    rw [this]

theorem isQuote_not_space (c : Char) (h : isQuote c = true) : jsSpace c = false := by
  rcases Bool.or_eq_true_iff.mp h with h' | h' <;>
    · rw [beq_iff_eq.mp h']; decide

theorem valueChar_not_quote (c : Char) (h : valueChar c = true) : isQuote c = false := by
  simp only [valueChar, Bool.and_eq_true, Bool.not_eq_true'] at h
  exact h.1

theorem dropWhile_jsSpace_append_space (n : List Char)
    (hns : jsSpace (n.headD 'x') = false) :
    (' ' :: n).dropWhile jsSpace = n := by
  rw [List.dropWhile_cons]
  simp only [show jsSpace ' ' = true from rfl, if_true]
  exact dropWhile_jsSpace_eq_self n hns

theorem head_nonspace_of_all (n : List Char) (hns : ∀ c ∈ n, jsSpace c = false) :
    jsSpace (n.headD 'x') = false := by
  cases n with
  | nil => decide
  | cons c t => exact List.headD_cons .. ▸ hns c (List.mem_cons_self ..)

theorem tokenValue_space_cases (w n : List Char) (hw : ∀ c ∈ w, jsSpace c = true)
    (hne : n ≠ []) (hns : ∀ c ∈ n, jsSpace c = false) :
    tokenValue (w ++ n) = some n := by
  simp only [tokenValue]
  rw [List.dropWhile_append_of_pos hw, dropWhile_jsSpace_eq_self n (head_nonspace_of_all n hns)]
  rw [if_neg (by simpa using hne), if_neg (by simp; intro x hx; simp [hns x hx])]

/-- The `else` arm of the directive matchers, evaluated on a space-headed
remainder holding a single clean token. -/
theorem tokenAfterSpaces_token (n : List Char) (hne : n ≠ [])
    (hns : ∀ c ∈ n, jsSpace c = false) :
    tokenAfterSpaces (' ' :: n) = some n := by
  simp only [tokenAfterSpaces, show jsSpace ' ' = true from rfl, if_true]
  exact tokenValue_space_cases [' '] n (by decide) hne hns

theorem matchKeyTokenDirective_space (kw : List (Char × Char)) (k n : String)
    (hk : kwMatches kw k.data = true)
    (hhead : jsSpace ((k.data ++ ' ' :: n.data).headD 'x') = false)
    (hne : n.data ≠ []) (hns : ∀ c ∈ n.data, jsSpace c = false)
    (hcolon : (n.data.headD '\x00' == ':') = false) :
    matchKeyTokenDirective kw (k.data ++ ' ' :: n.data) = some n.data := by
  simp only [matchKeyTokenDirective]
  rw [dropWhile_jsSpace_eq_self _ hhead, stripKeyword_append kw k.data _ hk]
  simp only [dropWhile_jsSpace_append_space n.data (head_nonspace_of_all n.data hns), hcolon,
    Bool.false_eq_true, if_false]
  exact tokenAfterSpaces_token n.data hne hns

/-- Evaluation of `parseTodoistQuery` once the trimmed character list is
known and non-empty: the directive cascade in the source, verbatim. -/
theorem parseTodoistQuery_eval (s : String) (l : List Char)
    (htrim : (jsTrim s).data = l) (hne : l.isEmpty = false) :
    parseTodoistQuery s =
      (match matchFilterDirective l with
      | some v => ⟨none, none, some (jsTrim (String.mk v))⟩
      | none =>
        match matchKeyTokenDirective keywordProject l with
        | some v => ⟨some (jsTrim (String.mk v)), none, none⟩
        | none =>
          match matchKeyTokenDirective keywordSection l with
          | some v => ⟨none, some (jsTrim (String.mk v)), none⟩
          | none =>
            if l.all Char.isDigit then ⟨some (jsTrim s), none, none⟩
            else ⟨none, none, some (jsTrim s)⟩) := by
  have hl : jsTrim s = String.mk l := by
    cases hq : jsTrim s with
    | mk d => rw [hq] at htrim; rw [show d = l from htrim]
  simp only [parseTodoistQuery, htrim, hne, hl]
  rfl

theorem getLastD_append_of_ne_nil (l r : List Char) (d : Char) (h : r ≠ []) :
    (l ++ r).getLastD d = r.getLastD d := by
  rw [List.getLastD_eq_getLast?, List.getLastD_eq_getLast?, List.getLast?_append,
    List.getLast?_eq_getLast r h]
  rfl

theorem getLastD_mem (l : List Char) (h : l ≠ []) (d : Char) : l.getLastD d ∈ l := by
  rw [List.getLastD_eq_getLast?, List.getLast?_eq_getLast l h]
  exact List.getLast_mem _

theorem isDigit_not_space (c : Char) (h : c.isDigit = true) : jsSpace c = false := by
  cases hq : jsSpace c with
  | false => rfl
  | true =>
    exfalso
    have hc := hq
    simp only [jsSpace, Bool.or_eq_true_iff, beq_iff_eq] at hc
    rcases hc with ((((rfl | rfl) | rfl) | rfl) | rfl) | rfl <;> exact absurd h (by decide)

theorem isDigit_ne_pair (c lo hi : Char) (h : c.isDigit = true) (hlo : lo.isDigit = false)
    (hhi : hi.isDigit = false) : (c == lo || c == hi) = false := by
  cases hq : (c == lo || c == hi) with
  | false => rfl
  | true =>
    exfalso
    rcases Bool.or_eq_true_iff.mp hq with h' | h'
    · rw [beq_iff_eq.mp h'] at h; rw [h] at hlo; exact absurd hlo (by decide)
    · rw [beq_iff_eq.mp h'] at h; rw [h] at hhi; exact absurd hhi (by decide)

/-! ## Claims about the query parser -/

/-- Claim C6 counterexample: the input `"project :8"` is of the form
`project N` for the single token `N = ":8"` ending the line, yet the
parser returns `projectId = "8"`, not `":8"` — the colon-form regex
`/^\s*project\s*:\s*(\S+)$/` admits whitespace before the colon and
wins, capturing only what follows the colon. -/
theorem c6_counterexample :
    ("project :8" : String) = "project" ++ " " ++ ":8" ∧
    (":8" : String) ≠ "" ∧ (∀ c ∈ (":8" : String).data, jsSpace c = false) ∧
    parseTodoistQuery "project :8" = ⟨some "8", none, none⟩ ∧
    parseTodoistQuery "project :8" ≠ ⟨some ":8", none, none⟩ := by
  refine ⟨by decide, by decide, by decide, by decide, by decide⟩

/-- Claim C6, amended: `parseTodoistQuery` is total and implements the
precedence grammar: trimmed-empty input yields the empty query; inputs
`project:N` and `project N` (keyword case-insensitive, `N` a single
token ending the line, and — the amendment — in the space form `N` must
not begin with `':'`, otherwise the colon form applies instead and
captures only what follows the colon) and an all-digit line yield
`projectId = N`; `section:N` / `section N` likewise yield
`sectionId = N`; any other non-empty input matching no directive yields
the trimmed input verbatim as `filter`, never an error. -/
theorem c6_parseTodoistQuery_grammar :
    (∀ s : String, jsTrim s = "" → parseTodoistQuery s = ⟨none, none, none⟩) ∧
    (∀ k n : String, kwMatches keywordProject k.data = true → n ≠ "" →
      (∀ c ∈ n.data, jsSpace c = false) →
      parseTodoistQuery (k ++ ":" ++ n) = ⟨some n, none, none⟩) ∧
    (∀ k n : String, kwMatches keywordProject k.data = true → n ≠ "" →
      (∀ c ∈ n.data, jsSpace c = false) → (n.data.headD '\x00' == ':') = false →
      parseTodoistQuery (k ++ " " ++ n) = ⟨some n, none, none⟩) ∧
    (∀ s : String, (jsTrim s).data ≠ [] → (∀ c ∈ (jsTrim s).data, c.isDigit = true) →
      parseTodoistQuery s = ⟨some (jsTrim s), none, none⟩) ∧
    (∀ k n : String, kwMatches keywordSection k.data = true → n ≠ "" →
      (∀ c ∈ n.data, jsSpace c = false) →
      parseTodoistQuery (k ++ ":" ++ n) = ⟨none, some n, none⟩) ∧
    (∀ k n : String, kwMatches keywordSection k.data = true → n ≠ "" →
      (∀ c ∈ n.data, jsSpace c = false) → (n.data.headD '\x00' == ':') = false →
      parseTodoistQuery (k ++ " " ++ n) = ⟨none, some n, none⟩) ∧
    (∀ s : String, (jsTrim s).data ≠ [] →
      matchFilterDirective (jsTrim s).data = none →
      matchKeyTokenDirective keywordProject (jsTrim s).data = none →
      matchKeyTokenDirective keywordSection (jsTrim s).data = none →
      (jsTrim s).data.all Char.isDigit = false →
      parseTodoistQuery s = ⟨none, none, some (jsTrim s)⟩) := by
  have hcolonchar : (":" : String).data = [':'] := rfl
  have hspacechar : (" " : String).data = [' '] := rfl
  refine ⟨?_, ?_, ?_, ?_, ?_, ?_, ?_⟩
  · intro s h
    simp [parseTodoistQuery, h]
  · -- project colon form
    intro k n hk hne hns
    obtain ⟨c0, ks, hkd, hc0, -⟩ := kwMatches_head 'p' 'P' _ k.data hk
    have hc0' : c0 = 'p' ∨ c0 = 'P' := by
      rcases Bool.or_eq_true_iff.mp hc0 with h' | h'
      · exact Or.inl (beq_iff_eq.mp h')
      · exact Or.inr (beq_iff_eq.mp h')
    have hc0ns : jsSpace c0 = false := by rcases hc0' with rfl | rfl <;> decide
    have hc0f : (c0 == 'f' || c0 == 'F') = false := by rcases hc0' with rfl | rfl <;> decide
    have hdata : (k ++ ":" ++ n).data = k.data ++ ':' :: n.data := by
      simp [String.data_append, hcolonchar]
    have hall : ∀ c ∈ (k ++ ":" ++ n).data, jsSpace c = false := by
      rw [hdata]; intro c hc
      rcases List.mem_append.mp hc with hc | hc
      · exact kwMatches_nonspace _ _ (by decide) hk c hc
      · rcases List.mem_cons.mp hc with rfl | hc
        · decide
        · exact hns c hc
    have hlist : (jsTrim (k ++ ":" ++ n)).data = k.data ++ ':' :: n.data := by
      rw [jsTrim_id_of_all _ hall, hdata]
    have hnil : (k.data ++ ':' :: n.data).isEmpty = false := by
      rw [hkd]; rfl
    rw [parseTodoistQuery_eval _ _ hlist hnil]
    have hfil : matchFilterDirective (k.data ++ ':' :: n.data) = none := by
      rw [hkd]; simp only [List.cons_append]
      exact matchFilterDirective_head_ne c0 _ hc0ns hc0f
    have hhead : jsSpace ((k.data ++ ':' :: n.data).headD 'x') = false := by
      rw [hkd]; simp only [List.cons_append, List.headD_cons]; exact hc0ns
    have hproj : matchKeyTokenDirective keywordProject (k.data ++ ':' :: n.data) = some n.data := by
      rw [matchKeyTokenDirective_colon keywordProject k n.data hk hhead]
      simp only [tokenValue_of_token n (string_data_ne_nil n hne) hns]
    simp only [hfil, hproj]
    have hmk : String.mk n.data = n := rfl
    rw [hmk, jsTrim_id_of_all n hns]
  · -- project space form
    intro k n hk hne hns hcolon
    obtain ⟨c0, ks, hkd, hc0, -⟩ := kwMatches_head 'p' 'P' _ k.data hk
    have hc0' : c0 = 'p' ∨ c0 = 'P' := by
      rcases Bool.or_eq_true_iff.mp hc0 with h' | h'
      · exact Or.inl (beq_iff_eq.mp h')
      · exact Or.inr (beq_iff_eq.mp h')
    have hc0ns : jsSpace c0 = false := by rcases hc0' with rfl | rfl <;> decide
    have hc0f : (c0 == 'f' || c0 == 'F') = false := by rcases hc0' with rfl | rfl <;> decide
    have hdn : n.data ≠ [] := string_data_ne_nil n hne
    have hdata : (k ++ " " ++ n).data = k.data ++ ' ' :: n.data := by
      simp [String.data_append, hspacechar]
    have hends : jsTrim (k ++ " " ++ n) = k ++ " " ++ n := by
      apply jsTrim_id_of_ends
      · rw [hdata, hkd]; simp only [List.cons_append, List.headD_cons]; exact hc0ns
      · rw [hdata, getLastD_append_of_ne_nil _ _ _ (by simp),
          show (' ' :: n.data) = [' '] ++ n.data from rfl,
          getLastD_append_of_ne_nil _ _ _ hdn]
        exact hns _ (getLastD_mem n.data hdn 'x')
    have hlist : (jsTrim (k ++ " " ++ n)).data = k.data ++ ' ' :: n.data := by
      rw [hends, hdata]
    have hnil : (k.data ++ ' ' :: n.data).isEmpty = false := by rw [hkd]; rfl
    rw [parseTodoistQuery_eval _ _ hlist hnil]
    have hfil : matchFilterDirective (k.data ++ ' ' :: n.data) = none := by
      rw [hkd]; simp only [List.cons_append]
      exact matchFilterDirective_head_ne c0 _ hc0ns hc0f
    have hhead : jsSpace ((k.data ++ ' ' :: n.data).headD 'x') = false := by
      rw [hkd]; simp only [List.cons_append, List.headD_cons]; exact hc0ns
    have hproj : matchKeyTokenDirective keywordProject (k.data ++ ' ' :: n.data) = some n.data :=
      matchKeyTokenDirective_space keywordProject k n hk hhead hdn hns hcolon
    simp only [hfil, hproj]
    have hmk : String.mk n.data = n := rfl
    rw [hmk, jsTrim_id_of_all n hns]
  · -- all-digit line
    intro s hne hdg
    rcases hl : (jsTrim s).data with _ | ⟨c0, rest⟩
    · exact absurd hl hne
    · have hdg' : ∀ c ∈ c0 :: rest, c.isDigit = true := by rw [← hl]; exact hdg
      have hd0 : c0.isDigit = true := hdg' c0 (List.mem_cons_self ..)
      have hns0 : jsSpace c0 = false := isDigit_not_space c0 hd0
      rw [parseTodoistQuery_eval s (c0 :: rest) hl rfl]
      rw [matchFilterDirective_head_ne c0 rest hns0
        (isDigit_ne_pair c0 'f' 'F' hd0 (by decide) (by decide))]
      have hpn : matchKeyTokenDirective keywordProject (c0 :: rest) = none :=
        matchKeyTokenDirective_head_ne 'p' 'P' _ c0 rest hns0
          (isDigit_ne_pair c0 'p' 'P' hd0 (by decide) (by decide))
      have hsn : matchKeyTokenDirective keywordSection (c0 :: rest) = none :=
        matchKeyTokenDirective_head_ne 's' 'S' _ c0 rest hns0
          (isDigit_ne_pair c0 's' 'S' hd0 (by decide) (by decide))
      rw [hpn, hsn]
      have hall : (c0 :: rest).all Char.isDigit = true := by
        rw [List.all_eq_true]; exact hdg'
      simp only [hall, if_true]
  · -- section colon form
    intro k n hk hne hns
    obtain ⟨c0, ks, hkd, hc0, -⟩ := kwMatches_head 's' 'S' _ k.data hk
    have hc0' : c0 = 's' ∨ c0 = 'S' := by
      rcases Bool.or_eq_true_iff.mp hc0 with h' | h'
      · exact Or.inl (beq_iff_eq.mp h')
      · exact Or.inr (beq_iff_eq.mp h')
    have hc0ns : jsSpace c0 = false := by rcases hc0' with rfl | rfl <;> decide
    have hc0f : (c0 == 'f' || c0 == 'F') = false := by rcases hc0' with rfl | rfl <;> decide
    have hc0p : (c0 == 'p' || c0 == 'P') = false := by rcases hc0' with rfl | rfl <;> decide
    have hdata : (k ++ ":" ++ n).data = k.data ++ ':' :: n.data := by
      simp [String.data_append, hcolonchar]
    have hall : ∀ c ∈ (k ++ ":" ++ n).data, jsSpace c = false := by
      rw [hdata]; intro c hc
      rcases List.mem_append.mp hc with hc | hc
      · exact kwMatches_nonspace _ _ (by decide) hk c hc
      · rcases List.mem_cons.mp hc with rfl | hc
        · decide
        · exact hns c hc
    have hlist : (jsTrim (k ++ ":" ++ n)).data = k.data ++ ':' :: n.data := by
      rw [jsTrim_id_of_all _ hall, hdata]
    have hnil : (k.data ++ ':' :: n.data).isEmpty = false := by rw [hkd]; rfl
    rw [parseTodoistQuery_eval _ _ hlist hnil]
    have hfil : matchFilterDirective (k.data ++ ':' :: n.data) = none := by
      rw [hkd]; simp only [List.cons_append]
      exact matchFilterDirective_head_ne c0 _ hc0ns hc0f
    have hprojn : matchKeyTokenDirective keywordProject (k.data ++ ':' :: n.data) = none := by
      rw [hkd]; simp only [List.cons_append]
      exact matchKeyTokenDirective_head_ne 'p' 'P' _ c0 _ hc0ns hc0p
    have hhead : jsSpace ((k.data ++ ':' :: n.data).headD 'x') = false := by
      rw [hkd]; simp only [List.cons_append, List.headD_cons]; exact hc0ns
    have hsec : matchKeyTokenDirective keywordSection (k.data ++ ':' :: n.data) = some n.data := by
      rw [matchKeyTokenDirective_colon keywordSection k n.data hk hhead]
      simp only [tokenValue_of_token n (string_data_ne_nil n hne) hns]
    simp only [hfil, hprojn, hsec]
    have hmk : String.mk n.data = n := rfl
    rw [hmk, jsTrim_id_of_all n hns]
  · -- section space form
    intro k n hk hne hns hcolon
    obtain ⟨c0, ks, hkd, hc0, -⟩ := kwMatches_head 's' 'S' _ k.data hk
    have hc0' : c0 = 's' ∨ c0 = 'S' := by
      rcases Bool.or_eq_true_iff.mp hc0 with h' | h'
      · exact Or.inl (beq_iff_eq.mp h')
      · exact Or.inr (beq_iff_eq.mp h')
    have hc0ns : jsSpace c0 = false := by rcases hc0' with rfl | rfl <;> decide
    have hc0f : (c0 == 'f' || c0 == 'F') = false := by rcases hc0' with rfl | rfl <;> decide
    have hc0p : (c0 == 'p' || c0 == 'P') = false := by rcases hc0' with rfl | rfl <;> decide
    have hdn : n.data ≠ [] := string_data_ne_nil n hne
    have hdata : (k ++ " " ++ n).data = k.data ++ ' ' :: n.data := by
      simp [String.data_append, hspacechar]
    have hends : jsTrim (k ++ " " ++ n) = k ++ " " ++ n := by
      apply jsTrim_id_of_ends
      · rw [hdata, hkd]; simp only [List.cons_append, List.headD_cons]; exact hc0ns
      · rw [hdata, getLastD_append_of_ne_nil _ _ _ (by simp),
          show (' ' :: n.data) = [' '] ++ n.data from rfl,
          getLastD_append_of_ne_nil _ _ _ hdn]
        exact hns _ (getLastD_mem n.data hdn 'x')
    have hlist : (jsTrim (k ++ " " ++ n)).data = k.data ++ ' ' :: n.data := by
      rw [hends, hdata]
    have hnil : (k.data ++ ' ' :: n.data).isEmpty = false := by rw [hkd]; rfl
    rw [parseTodoistQuery_eval _ _ hlist hnil]
    have hfil : matchFilterDirective (k.data ++ ' ' :: n.data) = none := by
      rw [hkd]; simp only [List.cons_append]
      exact matchFilterDirective_head_ne c0 _ hc0ns hc0f
    have hprojn : matchKeyTokenDirective keywordProject (k.data ++ ' ' :: n.data) = none := by
      rw [hkd]; simp only [List.cons_append]
      exact matchKeyTokenDirective_head_ne 'p' 'P' _ c0 _ hc0ns hc0p
    have hhead : jsSpace ((k.data ++ ' ' :: n.data).headD 'x') = false := by
      rw [hkd]; simp only [List.cons_append, List.headD_cons]; exact hc0ns
    have hsec : matchKeyTokenDirective keywordSection (k.data ++ ' ' :: n.data) = some n.data :=
      matchKeyTokenDirective_space keywordSection k n hk hhead hdn hns hcolon
    simp only [hfil, hprojn, hsec]
    have hmk : String.mk n.data = n := rfl
    rw [hmk, jsTrim_id_of_all n hns]
  · -- verbatim filter fallback
    intro s hne hf hp hs hd
    have hnil : (jsTrim s).data.isEmpty = false := by
      rcases hq : (jsTrim s).data with _ | ⟨a, b⟩
      · exact absurd hq hne
      · rfl
    rw [parseTodoistQuery_eval s ((jsTrim s).data) rfl hnil]
    simp only [hf, hp, hs, hd, Bool.false_eq_true, if_false]

/-- Witness for C6: the grammar theorem applied to the concrete inputs
of the repository's own test suite (empty input, `project:123`,
`Project 456`, a bare digit line, `section:7`, `section 8`, and the
`#Work` fallback). -/
theorem c6_parseTodoistQuery_grammar_witness :
    parseTodoistQuery "   " = ⟨none, none, none⟩ ∧
    parseTodoistQuery "project:123" = ⟨some "123", none, none⟩ ∧
    parseTodoistQuery "Project 456" = ⟨some "456", none, none⟩ ∧
    parseTodoistQuery "  999  " = ⟨some "999", none, none⟩ ∧
    parseTodoistQuery "section:7" = ⟨none, some "7", none⟩ ∧
    parseTodoistQuery "section 8" = ⟨none, some "8", none⟩ ∧
    parseTodoistQuery "#Work" = ⟨none, none, some "#Work"⟩ :=
  ⟨c6_parseTodoistQuery_grammar.1 "   " (by decide),
    c6_parseTodoistQuery_grammar.2.1 "project" "123" (by decide) (by decide) (by decide),
    c6_parseTodoistQuery_grammar.2.2.1 "Project" "456" (by decide) (by decide) (by decide)
      (by decide),
    c6_parseTodoistQuery_grammar.2.2.2.1 "  999  " (by decide) (by decide),
    c6_parseTodoistQuery_grammar.2.2.2.2.1 "section" "7" (by decide) (by decide) (by decide),
    c6_parseTodoistQuery_grammar.2.2.2.2.2.1 "section" "8" (by decide) (by decide) (by decide)
      (by decide),
    c6_parseTodoistQuery_grammar.2.2.2.2.2.2 "#Work" (by decide) (by decide) (by decide)
      (by decide) (by decide)⟩

theorem isQuote_not_valueChar (c : Char) (h : isQuote c = true) : valueChar c = false := by
  simp [valueChar, h]

theorem valueTail_quoted_end (v : List Char) (q : Char) (hne : v ≠ [])
    (hv : ∀ c ∈ v, valueChar c = true) (hq : isQuote q = true) :
    valueTail (v ++ [q]) = some v := by
  simp only [valueTail]
  rw [List.takeWhile_append_of_pos (by exact hv), List.dropWhile_append_of_pos (by exact hv)]
  simp only [List.takeWhile_cons, isQuote_not_valueChar q hq, Bool.false_eq_true, if_false,
    List.dropWhile_cons, List.append_nil]
  rw [if_neg (by simpa using hne), hq]
  rfl

theorem valueTail_plain (v : List Char) (hne : v ≠ [])
    (hv : ∀ c ∈ v, valueChar c = true) : valueTail v = some v := by
  simp only [valueTail]
  have ht : v.takeWhile valueChar = v := by
    have := @List.takeWhile_append_of_pos _ valueChar v ([] : List Char) (by exact hv)
    simpa using this
  have hd : v.dropWhile valueChar = [] := by
    have := @List.dropWhile_append_of_pos _ valueChar v ([] : List Char) (by exact hv)
    simpa using this
  rw [ht, hd, if_neg (by simpa using hne)]

theorem colonValue_quoted (q1 q2 : Char) (v : List Char) (h1 : isQuote q1 = true)
    (h2 : isQuote q2 = true) (hne : v ≠ []) (hv : ∀ c ∈ v, valueChar c = true) :
    colonValue (q1 :: (v ++ [q2])) = some v := by
  have hq1ns : jsSpace q1 = false := isQuote_not_space q1 h1
  simp only [colonValue, List.takeWhile_cons, List.dropWhile_cons, hq1ns, Bool.false_eq_true,
    if_false, h1, if_true]
  rw [valueTail_quoted_end v q2 hne hv h2]

theorem colonValue_plain (v : List Char) (hne : v ≠ []) (hv : ∀ c ∈ v, valueChar c = true)
    (hns : jsSpace (v.headD 'x') = false) : colonValue v = some v := by
  rcases hl : v with _ | ⟨c, t⟩
  · exact absurd hl hne
  · rw [← hl]
    have hcq : isQuote c = false := valueChar_not_quote c (hv c (hl ▸ List.mem_cons_self ..))
    have hcns : jsSpace c = false := by rw [hl] at hns; simpa using hns
    simp only [colonValue, hl, List.takeWhile_cons, List.dropWhile_cons, hcns,
      Bool.false_eq_true, if_false, hcq]
    rw [← hl, valueTail_plain v hne hv]

theorem matchFilterDirective_colon_value (k : String) (s4 : List Char) (v : List Char)
    (hk : kwMatches keywordFilter k.data = true)
    (hne : jsSpace ((k.data ++ ':' :: s4).headD 'x') = false)
    (hcv : colonValue s4 = some v) :
    matchFilterDirective (k.data ++ ':' :: s4) = some v := by
  rw [matchFilterDirective_colon k s4 hk hne]
  simp only [hcv]

theorem matchFilterDirective_space (k v : String) (hk : kwMatches keywordFilter k.data = true)
    (hhead : jsSpace ((k.data ++ ' ' :: v.data).headD 'x') = false)
    (hvh : jsSpace (v.data.headD 'x') = false) (hne : v.data ≠ [])
    (hnl : v.data.contains '\n' = false)
    (hcolon : (v.data.headD '\x00' == ':') = false) :
    matchFilterDirective (k.data ++ ' ' :: v.data) = some v.data := by
  simp only [matchFilterDirective]
  rw [dropWhile_jsSpace_eq_self _ hhead, stripKeyword_append keywordFilter k.data _ hk]
  simp only [dropWhile_jsSpace_append_space v.data hvh, hcolon, Bool.false_eq_true, if_false]
  have hEmp : v.data.isEmpty = false := by
    rcases hq : v.data with _ | ⟨a, b⟩
    · exact absurd hq hne
    · rfl
  simp only [spaceFormValue, show jsSpace ' ' = true from rfl, if_true]
  rw [dropWhile_jsSpace_append_space v.data hvh]
  simp only [hEmp, hnl, Bool.false_eq_true, if_false]

/-- Claim C7 counterexample: for the space form `filter "today"`, the
claim predicts that the surrounding quotes are stripped, i.e.
`filter = "today"` (7 characters); the code's space-form regex
`/^\s*filter\s+([^\n]+)$/` has no quote handling and captures the
quotes, so the result keeps them. -/
theorem c7_counterexample :
    parseTodoistQuery "filter \"today\"" = ⟨none, none, some "\"today\""⟩ ∧
    parseTodoistQuery "filter \"today\"" ≠ ⟨none, none, some "today"⟩ := by
  refine ⟨by decide, by decide⟩

/-- Claim C7, amended: for every input of the form `filter:X` (any
casing of the keyword), the captured value extends to the end of the
line, may contain special characters such as `|`, `&` and `#`, and
surrounding single or double quotes around it are stripped (matching or
not).  For the space form `filter X` — the amendment — the value is
captured verbatim to the end of the line, quotes included; no quote
stripping happens there.  (In the space form the value must not begin
with `':'`, otherwise the colon form applies instead.) -/
theorem c7_parseTodoistQuery_filter (k v : String) (q1 q2 : Char)
    (hk : kwMatches keywordFilter k.data = true) :
    (isQuote q1 = true → isQuote q2 = true → v ≠ "" →
      (∀ c ∈ v.data, valueChar c = true) →
      parseTodoistQuery (String.mk (k.data ++ ':' :: q1 :: (v.data ++ [q2]))) =
        ⟨none, none, some (jsTrim v)⟩) ∧
    (v ≠ "" → (∀ c ∈ v.data, valueChar c = true) →
      jsSpace (v.data.headD 'x') = false → jsSpace (v.data.getLastD 'x') = false →
      parseTodoistQuery (k ++ ":" ++ v) = ⟨none, none, some v⟩) ∧
    (v ≠ "" → v.data.contains '\n' = false →
      jsSpace (v.data.headD 'x') = false → jsSpace (v.data.getLastD 'x') = false →
      (v.data.headD '\x00' == ':') = false →
      parseTodoistQuery (k ++ " " ++ v) = ⟨none, none, some v⟩) := by
  have hkall : ∀ c ∈ k.data, jsSpace c = false :=
    kwMatches_nonspace keywordFilter k.data (by decide) hk
  obtain ⟨c0, ks, hkd, hc0, -⟩ := kwMatches_head 'f' 'F' _ k.data hk
  have hc0ns : jsSpace c0 = false := hkall c0 (hkd ▸ List.mem_cons_self ..)
  refine ⟨?_, ?_, ?_⟩
  · -- colon form with quotes
    intro h1 h2 hne hv
    have hdn : v.data ≠ [] := string_data_ne_nil v hne
    have hq2ns : jsSpace q2 = false := isQuote_not_space q2 h2
    have hlist : (jsTrim (String.mk (k.data ++ ':' :: q1 :: (v.data ++ [q2])))).data =
        k.data ++ ':' :: q1 :: (v.data ++ [q2]) := by
      rw [jsTrim_id_of_ends]
      · rw [hkd]; simp only [List.cons_append, List.headD_cons]; exact hc0ns
      · rw [show k.data ++ ':' :: q1 :: (v.data ++ [q2]) =
            (k.data ++ ':' :: q1 :: v.data) ++ [q2] from by simp]
        rw [getLastD_append_of_ne_nil _ _ _ (by simp)]
        exact hq2ns
    have hnil : (k.data ++ ':' :: q1 :: (v.data ++ [q2])).isEmpty = false := by
      rw [hkd]; rfl
    rw [parseTodoistQuery_eval _ _ hlist hnil]
    have hfil : matchFilterDirective (k.data ++ ':' :: q1 :: (v.data ++ [q2])) =
        some v.data := by
      apply matchFilterDirective_colon_value k _ v.data hk
      · rw [hkd]; simp only [List.cons_append, List.headD_cons]; exact hc0ns
      · exact colonValue_quoted q1 q2 v.data h1 h2 hdn hv
    simp only [hfil]
  · -- colon form without quotes
    intro hne hv hvh hvl
    have hdn : v.data ≠ [] := string_data_ne_nil v hne
    have hdata : (k ++ ":" ++ v).data = k.data ++ ':' :: v.data := by
      simp [String.data_append, show (":" : String).data = [':'] from rfl]
    have hlist : (jsTrim (k ++ ":" ++ v)).data = k.data ++ ':' :: v.data := by
      rw [jsTrim_id_of_ends, hdata]
      · rw [hdata, hkd]; simp only [List.cons_append, List.headD_cons]; exact hc0ns
      · rw [hdata, getLastD_append_of_ne_nil _ _ _ (by simp),
          show (':' :: v.data) = [':'] ++ v.data from rfl,
          getLastD_append_of_ne_nil _ _ _ hdn]
        exact hvl
    have hnil : (k.data ++ ':' :: v.data).isEmpty = false := by rw [hkd]; rfl
    rw [parseTodoistQuery_eval _ _ hlist hnil]
    have hfil : matchFilterDirective (k.data ++ ':' :: v.data) = some v.data := by
      apply matchFilterDirective_colon_value k _ v.data hk
      · rw [hkd]; simp only [List.cons_append, List.headD_cons]; exact hc0ns
      · exact colonValue_plain v.data hdn hv hvh
    simp only [hfil]
    have hmk : String.mk v.data = v := rfl
    rw [hmk, jsTrim_id_of_ends v hvh hvl]
  · -- space form, verbatim
    intro hne hnl hvh hvl hcolon
    have hdn : v.data ≠ [] := string_data_ne_nil v hne
    have hdata : (k ++ " " ++ v).data = k.data ++ ' ' :: v.data := by
      simp [String.data_append, show (" " : String).data = [' '] from rfl]
    have hlist : (jsTrim (k ++ " " ++ v)).data = k.data ++ ' ' :: v.data := by
      rw [jsTrim_id_of_ends, hdata]
      · rw [hdata, hkd]; simp only [List.cons_append, List.headD_cons]; exact hc0ns
      · rw [hdata, getLastD_append_of_ne_nil _ _ _ (by simp),
          show (' ' :: v.data) = [' '] ++ v.data from rfl,
          getLastD_append_of_ne_nil _ _ _ hdn]
        exact hvl
    have hnil : (k.data ++ ' ' :: v.data).isEmpty = false := by rw [hkd]; rfl
    rw [parseTodoistQuery_eval _ _ hlist hnil]
    have hfil : matchFilterDirective (k.data ++ ' ' :: v.data) = some v.data := by
      apply matchFilterDirective_space k v hk _ hvh hdn hnl hcolon
      rw [hkd]; simp only [List.cons_append, List.headD_cons]; exact hc0ns
    simp only [hfil]
    have hmk : String.mk v.data = v := rfl
    rw [hmk, jsTrim_id_of_ends v hvh hvl]

/-- Witness for C7: the amended filter-form behaviour at the concrete
inputs of the claim — quoted colon form (quotes stripped), plain colon
form with the special characters, and the space form keeping its
quotes verbatim. -/
theorem c7_parseTodoistQuery_filter_witness :
    parseTodoistQuery (String.mk (("filter" : String).data ++
        ':' :: '"' :: (("today & !subtask" : String).data ++ ['"']))) =
      ⟨none, none, some (jsTrim "today & !subtask")⟩ ∧
    parseTodoistQuery ("FILTER" ++ ":" ++ "today | overdue#x&y") =
      ⟨none, none, some "today | overdue#x&y"⟩ ∧
    parseTodoistQuery ("filter" ++ " " ++ "\"today\"") = ⟨none, none, some "\"today\""⟩ :=
  ⟨(c7_parseTodoistQuery_filter "filter" "today & !subtask" '"' '"' (by decide)).1
      (by decide) (by decide) (by decide) (by decide),
    (c7_parseTodoistQuery_filter "FILTER" "today | overdue#x&y" '"' '"' (by decide)).2.1
      (by decide) (by decide) (by decide) (by decide),
    (c7_parseTodoistQuery_filter "filter" "\"today\"" '"' '"' (by decide)).2.2
      (by decide) (by decide) (by decide) (by decide) (by decide)⟩

/-! ## Tree builder (src/taskTree.ts, `buildTaskTree`)

The source builds a `Map` from id to a fresh childless node, then walks
the task list: a task whose `parent_id` is falsy (null, undefined or
the empty string) or whose `parent_id` is not a key of the map is
pushed onto the root list, every other task is pushed onto the children
array of the node `nodes.get(parent_id)`; finally the roots and,
recursively, every children array are sorted by `task.order` with the
stable `Array.prototype.sort`.

The functional model below reads this structure off per id: the node
stored under a key `i` holds the last task of the list whose id is `i`
(later `Map.set` wins) and its children are the nodes of all non-root
tasks whose `parent_id` equals `i`, in list order, sorted.  Because the
mutated object graph can only be unfolded into a tree along descending
parent chains, the unfolding takes a fuel argument; `buildTaskTree`
supplies `tasks.length`, which (as proved below) suffices for every
node reachable from a root when ids are pairwise distinct — the chain
of strict descendants of a root never repeats a task.  JavaScript's
`Array.prototype.sort` is a stable sort, modelled by Mathlib's (stable)
`List.insertionSort`. -/

/-- The ids of the collection: the key set of the `byId` / `nodes`
maps. -/
def taskIds (tasks : List TodoistTask) : List String :=
  tasks.map (fun t => t.id)

/-- The root test `!parentId || !nodes.has(parentId)`: JavaScript
truthiness makes the empty string count as "no parent". -/
def isRootTask (tasks : List TodoistTask) (t : TodoistTask) : Bool :=
  match t.parent_id with
  | none => true
  | some p => p == "" || !((taskIds tasks).contains p)

/-- The task stored in the maps under key `i`: the last task of the
list with that id (`Map.set` overwrites). -/
def lastWithId (tasks : List TodoistTask) (i : String) : Option TodoistTask :=
  (tasks.filter (fun x => x.id == i)).getLast?

/-- The tasks pushed onto the children array of the node with key `i`:
the non-root tasks whose `parent_id` is `i`, in input order. -/
def childTasks (tasks : List TodoistTask) (i : String) : List TodoistTask :=
  tasks.filter (fun c => !isRootTask tasks c && c.parent_id == some i)

/-- The comparator `(a, b) => a.task.order - b.task.order` as an
ordering relation on nodes. -/
def nodeLE (a b : TaskNode) : Prop := a.task.order ≤ b.task.order

instance : DecidableRel nodeLE := fun a b => inferInstanceAs (Decidable (a.task.order ≤ b.task.order))

instance : IsTotal TaskNode nodeLE := ⟨fun a b => Int.le_total a.task.order b.task.order⟩

instance : IsTrans TaskNode nodeLE := ⟨fun _ _ _ => Int.le_trans⟩

/-- The same ordering on bare tasks. -/
def taskLE (a b : TodoistTask) : Prop := a.order ≤ b.order

instance : DecidableRel taskLE := fun a b => inferInstanceAs (Decidable (a.order ≤ b.order))

instance : IsTotal TodoistTask taskLE := ⟨fun a b => Int.le_total a.order b.order⟩

instance : IsTrans TodoistTask taskLE := ⟨fun _ _ _ => Int.le_trans⟩

/-- Stable sort of a sibling list by `order` (JavaScript
`Array.prototype.sort` with the comparator above is stable; insertion
sort computes the same list). -/
def sortNodes (l : List TaskNode) : List TaskNode :=
  l.insertionSort nodeLE

/-- Unfold the node stored under key `i` into a tree, to the given
depth: its task is `lastWithId`, its children the sorted nodes of its
child tasks.  At fuel 0 the children are cut off; `buildTaskTree`
passes enough fuel that this never affects a reachable node when ids
are pairwise distinct. -/
def buildNodeOfId (tasks : List TodoistTask) : Nat → String → Option TaskNode
  | 0, i => (lastWithId tasks i).map (fun t => TaskNode.mk t [])
  | fuel + 1, i =>
    (lastWithId tasks i).map (fun t =>
      TaskNode.mk t (sortNodes ((childTasks tasks i).filterMap
        (fun c => buildNodeOfId tasks fuel c.id))))

/-- Model of `buildTaskTree` (src/taskTree.ts lines 7-38): the sorted
list of the nodes pushed for the tasks passing the root test. -/
def buildTaskTree (tasks : List TodoistTask) : List TaskNode :=
  sortNodes ((tasks.filter (isRootTask tasks)).filterMap
    (fun t => buildNodeOfId tasks tasks.length t.id))

mutual

/-- Every node of a tree, the root included, in pre-order. -/
def TaskNode.subnodes : TaskNode → List TaskNode
  | .mk t cs => .mk t cs :: subnodesList cs

/-- Every node of a forest, in pre-order. -/
def subnodesList : List TaskNode → List TaskNode
  | [] => []
  | n :: ns => n.subnodes ++ subnodesList ns

end

mutual

/-- The tasks of a tree, in pre-order. -/
def TaskNode.allTasks : TaskNode → List TodoistTask
  | .mk t cs => t :: forestTasks cs

/-- The tasks of a forest, in pre-order. -/
def forestTasks : List TaskNode → List TodoistTask
  | [] => []
  | n :: ns => n.allTasks ++ forestTasks ns

end

/-- Every sibling list of a forest: the top-level list and the children
list of every node at every depth. -/
def siblingLists (forest : List TaskNode) : List (List TaskNode) :=
  forest :: (subnodesList forest).map (fun n => n.children)

/-- The resolved parent of a task: `none` for a root, otherwise the
task stored in the map under the `parent_id` key. -/
def parentTaskOf (tasks : List TodoistTask) (t : TodoistTask) : Option TodoistTask :=
  if isRootTask tasks t then none
  else
    match t.parent_id with
    | some p => lastWithId tasks p
    | none => none

/-- Iterated resolved parent: the ancestor `k` steps above `t`. -/
def ancestorAt (tasks : List TodoistTask) : Nat → TodoistTask → Option TodoistTask
  | 0, t => some t
  | k + 1, t =>
    match parentTaskOf tasks t with
    | some u => ancestorAt tasks k u
    | none => none

/-- Acyclicity of the resolved-parent relation, witnessed by a rank
function that strictly decreases from child to parent. -/
def rankOk (tasks : List TodoistTask) (rk : TodoistTask → Nat) : Bool :=
  tasks.all (fun c =>
    match parentTaskOf tasks c with
    | some u => decide (rk u < rk c)
    | none => true)

/-- Sample task for the tree-builder witnesses and counterexamples:
id, order and parent id; remaining fields fixed. -/
def sampleTask (i : String) (o : Int) (p : Option String) : TodoistTask :=
  ⟨i, "t", "", false, o, 1, "p1", [], none, none, none, p, "", "", none, none, ""⟩

/-! ## Base lemmas about the tree-builder model -/

theorem id_inj (tasks : List TodoistTask) (hN : (taskIds tasks).Nodup) :
    ∀ a ∈ tasks, ∀ b ∈ tasks, a.id = b.id → a = b :=
  List.inj_on_of_nodup_map hN

theorem filter_id_single (tasks : List TodoistTask) (hN : (taskIds tasks).Nodup)
    (t : TodoistTask) (ht : t ∈ tasks) :
    tasks.filter (fun x => x.id == t.id) = [t] := by
  induction tasks with
  | nil => cases ht
  | cons a rest ih =>
    simp only [taskIds, List.map_cons, List.nodup_cons] at hN
    obtain ⟨ha, hrest⟩ := hN
    rcases List.mem_cons.mp ht with rfl | ht
    · rw [List.filter_cons_of_pos (by simp)]
      rw [List.filter_eq_nil_iff.mpr (by
        intro x hx hpx
        exact ha (List.mem_map.mpr ⟨x, hx, beq_iff_eq.mp hpx⟩))]
    · rw [List.filter_cons_of_neg (by
        simp only [beq_iff_eq]
        intro he
        exact ha (he ▸ List.mem_map.mpr ⟨t, ht, rfl⟩))]
      exact ih hrest ht

theorem lastWithId_self (tasks : List TodoistTask) (hN : (taskIds tasks).Nodup)
    (t : TodoistTask) (ht : t ∈ tasks) : lastWithId tasks t.id = some t := by
  rw [lastWithId, filter_id_single tasks hN t ht]
  rfl

theorem lastWithId_mem (tasks : List TodoistTask) (i : String) (u : TodoistTask)
    (h : lastWithId tasks i = some u) : u ∈ tasks ∧ u.id = i := by
  have hm := List.mem_of_getLast?_eq_some h
  have := List.mem_filter.mp hm
  exact ⟨this.1, beq_iff_eq.mp this.2⟩

theorem childTasks_spec (tasks : List TodoistTask) (i : String) (c : TodoistTask)
    (h : c ∈ childTasks tasks i) :
    c ∈ tasks ∧ isRootTask tasks c = false ∧ c.parent_id = some i := by
  have := List.mem_filter.mp h
  obtain ⟨h1, h2⟩ := this
  simp only [Bool.and_eq_true, Bool.not_eq_true'] at h2
  exact ⟨h1, h2.1, beq_iff_eq.mp h2.2⟩

theorem mem_childTasks (tasks : List TodoistTask) (i : String) (c : TodoistTask)
    (hc : c ∈ tasks) (hr : isRootTask tasks c = false) (hp : c.parent_id = some i) :
    c ∈ childTasks tasks i := by
  apply List.mem_filter.mpr
  exact ⟨hc, by simp [hr, hp]⟩

theorem buildNodeOfId_zero (tasks : List TodoistTask) (i : String) :
    buildNodeOfId tasks 0 i = (lastWithId tasks i).map (fun t => TaskNode.mk t []) := rfl

theorem buildNodeOfId_succ (tasks : List TodoistTask) (fuel : Nat) (i : String) :
    buildNodeOfId tasks (fuel + 1) i = (lastWithId tasks i).map (fun t =>
      TaskNode.mk t (sortNodes ((childTasks tasks i).filterMap
        (fun c => buildNodeOfId tasks fuel c.id)))) := rfl

theorem buildNodeOfId_task (tasks : List TodoistTask) (fuel : Nat) (i : String) (n : TaskNode)
    (h : buildNodeOfId tasks fuel i = some n) : lastWithId tasks i = some n.task := by
  cases fuel with
  | zero =>
    rw [buildNodeOfId_zero] at h
    cases hq : lastWithId tasks i with
    | none => rw [hq] at h; cases h
    | some u =>
      rw [hq] at h
      simp only [Option.map_some'] at h
      rw [← Option.some_inj.mp h]
      rfl
  | succ fuel =>
    rw [buildNodeOfId_succ] at h
    cases hq : lastWithId tasks i with
    | none => rw [hq] at h; cases h
    | some u =>
      rw [hq] at h
      simp only [Option.map_some'] at h
      rw [← Option.some_inj.mp h]
      rfl

theorem buildNodeOfId_some (tasks : List TodoistTask) (hN : (taskIds tasks).Nodup)
    (fuel : Nat) (t : TodoistTask) (ht : t ∈ tasks) :
    ∃ cs, buildNodeOfId tasks fuel t.id = some (TaskNode.mk t cs) := by
  cases fuel with
  | zero =>
    rw [buildNodeOfId_zero, lastWithId_self tasks hN t ht]
    exact ⟨[], rfl⟩
  | succ fuel =>
    rw [buildNodeOfId_succ, lastWithId_self tasks hN t ht]
    exact ⟨_, rfl⟩

theorem filterMap_nodes_map_task (tasks : List TodoistTask) (hN : (taskIds tasks).Nodup)
    (fuel : Nat) : ∀ (sub : List TodoistTask), (∀ c ∈ sub, c ∈ tasks) →
    ((sub.filterMap (fun c => buildNodeOfId tasks fuel c.id)).map TaskNode.task) = sub
  | [], _ => rfl
  | c :: rest, hsub => by
    obtain ⟨cs, hcs⟩ := buildNodeOfId_some tasks hN fuel c (hsub c (List.mem_cons_self ..))
    rw [@List.filterMap_cons_some _ _ (fun d => buildNodeOfId tasks fuel d.id) c rest _ hcs,
      List.map_cons,
      filterMap_nodes_map_task tasks hN fuel rest
        (fun d hd => hsub d (List.mem_cons_of_mem _ hd))]
    rfl

theorem sortNodes_perm (l : List TaskNode) : List.Perm (sortNodes l) l :=
  List.perm_insertionSort nodeLE l

theorem sortNodes_sorted (l : List TaskNode) : (sortNodes l).Pairwise nodeLE :=
  List.sorted_insertionSort nodeLE l

theorem sortNodes_map_task (l : List TaskNode) :
    (sortNodes l).map TaskNode.task = (l.map TaskNode.task).insertionSort taskLE :=
  List.map_insertionSort nodeLE taskLE TaskNode.task l (fun _ _ _ _ => Iff.rfl)

theorem insertionSort_filter_order (ts : List TodoistTask) (k : Int) :
    (ts.insertionSort taskLE).filter (fun t => t.order == k) =
      ts.filter (fun t => t.order == k) := by
  set c := ts.filter (fun t => t.order == k) with hc
  have hpair : c.Pairwise taskLE := by
    apply List.pairwise_of_forall_mem_list
    intro a ha b hb
    have ha' := beq_iff_eq.mp (List.mem_filter.mp ha).2
    have hb' := beq_iff_eq.mp (List.mem_filter.mp hb).2
    unfold taskLE
    rw [ha', hb']
  have hsub : List.Sublist c (ts.insertionSort taskLE) :=
    List.sublist_insertionSort hpair (List.filter_sublist ts)
  have hsub2 : List.Sublist c ((ts.insertionSort taskLE).filter (fun t => t.order == k)) := by
    have : c = c.filter (fun t => t.order == k) :=
      (List.filter_eq_self.mpr (fun a ha => (List.mem_filter.mp ha).2)).symm
    rw [this]
    exact List.Sublist.filter _ hsub
  have hperm : List.Perm ((ts.insertionSort taskLE).filter (fun t => t.order == k)) c :=
    (List.perm_insertionSort taskLE ts).filter _
  exact (List.Sublist.eq_of_length hsub2 hperm.length_eq.symm).symm

theorem mem_subnodesList (x : TaskNode) : ∀ (ns : List TaskNode),
    x ∈ subnodesList ns ↔ ∃ n ∈ ns, x ∈ n.subnodes
  | [] => by simp [subnodesList]
  | n :: ns => by
    simp only [subnodesList, List.mem_append, mem_subnodesList x ns, List.mem_cons]
    constructor
    · rintro (h | ⟨m, hm, hx⟩)
      · exact ⟨n, Or.inl rfl, h⟩
      · exact ⟨m, Or.inr hm, hx⟩
    · rintro ⟨m, rfl | hm, hx⟩
      · exact Or.inl hx
      · exact Or.inr ⟨m, hm, hx⟩

theorem subnodes_eq (t : TodoistTask) (cs : List TaskNode) :
    (TaskNode.mk t cs).subnodes = TaskNode.mk t cs :: subnodesList cs := by
  rw [TaskNode.subnodes]

theorem forestTasks_cons (n : TaskNode) (ns : List TaskNode) :
    forestTasks (n :: ns) = n.allTasks ++ forestTasks ns := by
  rw [forestTasks]

theorem allTasks_eq (t : TodoistTask) (cs : List TaskNode) :
    (TaskNode.mk t cs).allTasks = t :: forestTasks cs := by
  rw [TaskNode.allTasks]

theorem forestTasks_perm : ∀ {ns ms : List TaskNode}, List.Perm ns ms →
    List.Perm (forestTasks ns) (forestTasks ms) := by
  intro ns ms h
  induction h with
  | nil => exact List.Perm.refl _
  | cons n _ ih => simp only [forestTasks_cons]; exact ih.append_left _
  | swap a b l =>
    simp only [forestTasks_cons, ← List.append_assoc]
    exact (List.perm_append_comm.append_right _)
  | trans _ _ ih1 ih2 => exact ih1.trans ih2

theorem mem_forestTasks (x : TodoistTask) : ∀ (ns : List TaskNode),
    x ∈ forestTasks ns ↔ ∃ n ∈ ns, x ∈ n.allTasks
  | [] => by simp [forestTasks]
  | n :: ns => by
    simp only [forestTasks_cons, List.mem_append, mem_forestTasks x ns, List.mem_cons]
    constructor
    · rintro (h | ⟨m, hm, hx⟩)
      · exact ⟨n, Or.inl rfl, h⟩
      · exact ⟨m, Or.inr hm, hx⟩
    · rintro ⟨m, rfl | hm, hx⟩
      · exact Or.inl hx
      · exact Or.inr ⟨m, hm, hx⟩

theorem node_children_sorted (tasks : List TodoistTask) :
    ∀ (fuel : Nat) (i : String) (n : TaskNode), buildNodeOfId tasks fuel i = some n →
      ∀ m ∈ n.subnodes, m.children.Pairwise nodeLE
  | 0, i, n, h => by
    rw [buildNodeOfId_zero] at h
    cases hq : lastWithId tasks i with
    | none => rw [hq] at h; cases h
    | some u =>
      rw [hq] at h
      simp only [Option.map_some'] at h
      rw [← Option.some_inj.mp h]
      intro m hm
      rw [subnodes_eq] at hm
      rcases List.mem_cons.mp hm with rfl | hm
      · exact List.Pairwise.nil
      · rw [show subnodesList ([] : List TaskNode) = [] from rfl] at hm
        cases hm
  | fuel + 1, i, n, h => by
    rw [buildNodeOfId_succ] at h
    cases hq : lastWithId tasks i with
    | none => rw [hq] at h; cases h
    | some u =>
      rw [hq] at h
      simp only [Option.map_some'] at h
      rw [← Option.some_inj.mp h]
      intro m hm
      rw [subnodes_eq] at hm
      rcases List.mem_cons.mp hm with rfl | hm
      · exact sortNodes_sorted _
      · obtain ⟨n', hn', hmsub⟩ := (mem_subnodesList m _).mp hm
        have hn'' : n' ∈ (childTasks tasks i).filterMap
            (fun c => buildNodeOfId tasks fuel c.id) :=
          (sortNodes_perm _).mem_iff.mp hn'
        obtain ⟨c, _, hnode⟩ := List.mem_filterMap.mp hn''
        exact node_children_sorted tasks fuel c.id n' hnode m hmsub

theorem node_children_stable (tasks : List TodoistTask) (hN : (taskIds tasks).Nodup) :
    ∀ (fuel : Nat) (i : String) (n : TaskNode), buildNodeOfId tasks fuel i = some n →
      ∀ m ∈ n.subnodes, ∀ k : Int,
        List.Sublist ((m.children.map TaskNode.task).filter (fun t => t.order == k))
          (tasks.filter (fun t => t.order == k))
  | 0, i, n, h => by
    rw [buildNodeOfId_zero] at h
    cases hq : lastWithId tasks i with
    | none => rw [hq] at h; cases h
    | some u =>
      rw [hq] at h
      simp only [Option.map_some'] at h
      rw [← Option.some_inj.mp h]
      intro m hm k
      rw [subnodes_eq] at hm
      rcases List.mem_cons.mp hm with rfl | hm
      · exact List.nil_sublist _
      · rw [show subnodesList ([] : List TaskNode) = [] from rfl] at hm
        cases hm
  | fuel + 1, i, n, h => by
    rw [buildNodeOfId_succ] at h
    cases hq : lastWithId tasks i with
    | none => rw [hq] at h; cases h
    | some u =>
      rw [hq] at h
      simp only [Option.map_some'] at h
      rw [← Option.some_inj.mp h]
      intro m hm k
      rw [subnodes_eq] at hm
      rcases List.mem_cons.mp hm with rfl | hm
      · show List.Sublist (((sortNodes _).map TaskNode.task).filter _) _
        rw [sortNodes_map_task,
          filterMap_nodes_map_task tasks hN fuel (childTasks tasks i)
            (fun c hc => (childTasks_spec tasks i c hc).1),
          insertionSort_filter_order]
        exact List.Sublist.filter _ (List.filter_sublist tasks)
      · obtain ⟨n', hn', hmsub⟩ := (mem_subnodesList m _).mp hm
        have hn'' : n' ∈ (childTasks tasks i).filterMap
            (fun c => buildNodeOfId tasks fuel c.id) :=
          (sortNodes_perm _).mem_iff.mp hn'
        obtain ⟨c, _, hnode⟩ := List.mem_filterMap.mp hn''
        exact node_children_stable tasks hN fuel c.id n' hnode m hmsub k

/-- Claim C4: in every forest returned by `buildTaskTree` (for a
collection with pairwise-distinct ids, the invariant the specification
declares for every fetched collection), every sibling list — the roots
and the children of every node at every depth — is sorted by `order`
ascending, and the sort is stable: restricted to any one `order` value,
a sibling list is a subsequence of the input collection, so ties keep
their original relative input order.  The comparator reads only
`order`. -/
theorem c4_buildTaskTree_sorted (tasks : List TodoistTask) (hN : (taskIds tasks).Nodup) :
    ∀ s ∈ siblingLists (buildTaskTree tasks),
      s.Pairwise nodeLE ∧
      ∀ k : Int, List.Sublist ((s.map TaskNode.task).filter (fun t => t.order == k))
        (tasks.filter (fun t => t.order == k)) := by
  intro s hs
  rw [siblingLists] at hs
  rcases List.mem_cons.mp hs with rfl | hs
  · refine ⟨sortNodes_sorted _, fun k => ?_⟩
    show List.Sublist (((sortNodes _).map TaskNode.task).filter _) _
    rw [sortNodes_map_task,
      filterMap_nodes_map_task tasks hN tasks.length (tasks.filter (isRootTask tasks))
        (fun c hc => (List.mem_filter.mp hc).1),
      insertionSort_filter_order]
    exact List.Sublist.filter _ (List.filter_sublist tasks)
  · obtain ⟨m, hm, rfl⟩ := List.mem_map.mp hs
    obtain ⟨n', hn', hmsub⟩ := (mem_subnodesList m _).mp hm
    have hn'' : n' ∈ (tasks.filter (isRootTask tasks)).filterMap
        (fun t => buildNodeOfId tasks tasks.length t.id) :=
      (sortNodes_perm _).mem_iff.mp hn'
    obtain ⟨r, _, hnode⟩ := List.mem_filterMap.mp hn''
    exact ⟨node_children_sorted tasks tasks.length r.id n' hnode m hmsub,
      node_children_stable tasks hN tasks.length r.id n' hnode m hmsub⟩

/-- Witness for C4 at the specification's example: roots with orders
`[2, 1, 3]` for ids `A`, `B`, `C` come back ordered `B`, `A`, `C`, and
the theorem's sortedness and stability hold at this input. -/
theorem c4_buildTaskTree_sorted_witness :
    (taskIds [sampleTask "A" 2 none, sampleTask "B" 1 none, sampleTask "C" 3 none]).Nodup ∧
    (∀ s ∈ siblingLists (buildTaskTree
        [sampleTask "A" 2 none, sampleTask "B" 1 none, sampleTask "C" 3 none]),
      s.Pairwise nodeLE ∧
      ∀ k : Int, List.Sublist ((s.map TaskNode.task).filter (fun t => t.order == k))
        (([sampleTask "A" 2 none, sampleTask "B" 1 none,
            sampleTask "C" 3 none]).filter (fun t => t.order == k))) ∧
    ((buildTaskTree [sampleTask "A" 2 none, sampleTask "B" 1 none,
        sampleTask "C" 3 none]).map (fun n => n.task.id)) = ["B", "A", "C"] :=
  ⟨by decide,
    c4_buildTaskTree_sorted _ (by decide),
    by decide⟩

/-! ## Chains of strict descendants, and fuel sufficiency -/

/-- A descending chain below `t`: each element is a child task of its
predecessor (of `t` for the head). -/
def descChain (tasks : List TodoistTask) : TodoistTask → List TodoistTask → Prop
  | _, [] => True
  | t, c :: rest => c ∈ childTasks tasks t.id ∧ descChain tasks c rest

theorem contains_iff_mem (l : List String) (a : String) : l.contains a = true ↔ a ∈ l := by
  rw [List.contains_iff_exists_mem_beq]
  constructor
  · rintro ⟨b, hb, hab⟩
    rw [beq_iff_eq.mp hab]
    exact hb
  · intro h
    exact ⟨a, h, by simp⟩

theorem chain_nodup_aux (tasks : List TodoistTask) (hN : (taskIds tasks).Nodup) :
    ∀ (ch q : List TodoistTask) (t : TodoistTask),
      descChain tasks t ch →
      q.Nodup → (∀ x ∈ q, x ∈ tasks) → t ∈ q →
      (∀ x ∈ q, isRootTask tasks x = true ∨ ∃ y ∈ q, x.parent_id = some y.id) →
      (∀ d ∈ childTasks tasks t.id, d ∉ q) →
      (q ++ ch).Nodup ∧ ∀ x ∈ ch, x ∈ tasks
  | [], q, t, _, hqn, _, _, _, _ => ⟨by simpa using hqn, by simp⟩
  | c :: rest, q, t, hch, hqn, hqt, htq, hP4, hlast => by
    obtain ⟨hc, hrest⟩ := hch
    obtain ⟨hcT, hcRoot, hcPar⟩ := childTasks_spec tasks t.id c hc
    have hcq : c ∉ q := hlast c hc
    have hqn' : (q ++ [c]).Nodup := by
      rw [(List.perm_append_singleton c q).nodup_iff]
      exact List.nodup_cons.mpr ⟨hcq, hqn⟩
    have hqt' : ∀ x ∈ q ++ [c], x ∈ tasks := by
      intro x hx
      rcases List.mem_append.mp hx with hx | hx
      · exact hqt x hx
      · rw [List.mem_singleton.mp hx]; exact hcT
    have htq' : c ∈ q ++ [c] := List.mem_append.mpr (Or.inr (List.mem_singleton.mpr rfl))
    have hP4' : ∀ x ∈ q ++ [c],
        isRootTask tasks x = true ∨ ∃ y ∈ q ++ [c], x.parent_id = some y.id := by
      intro x hx
      rcases List.mem_append.mp hx with hx | hx
      · rcases hP4 x hx with h | ⟨y, hy, hxy⟩
        · exact Or.inl h
        · exact Or.inr ⟨y, List.mem_append.mpr (Or.inl hy), hxy⟩
      · rw [List.mem_singleton.mp hx]
        exact Or.inr ⟨t, List.mem_append.mpr (Or.inl htq), hcPar⟩
    have hlast' : ∀ d ∈ childTasks tasks c.id, d ∉ q ++ [c] := by
      intro d hd hdq
      obtain ⟨hdT, hdRoot, hdPar⟩ := childTasks_spec tasks c.id d hd
      rcases List.mem_append.mp hdq with hdq | hdq
      · rcases hP4 d hdq with h | ⟨y, hy, hdy⟩
        · rw [h] at hdRoot; cases hdRoot
        · rw [hdPar] at hdy
          have hyc : c = y :=
            id_inj tasks hN c hcT y (hqt y hy) (Option.some_inj.mp hdy)
          exact hcq (hyc ▸ hy)
      · have hdc : d = c := List.mem_singleton.mp hdq
        rw [hdc] at hdPar
        have htc : c = t :=
          id_inj tasks hN c hcT t (hqt t htq) (Option.some_inj.mp (hdPar.symm.trans hcPar))
        exact hcq (htc ▸ htq)
    have hrec := chain_nodup_aux tasks hN rest (q ++ [c]) c hrest hqn' hqt' htq' hP4' hlast'
    constructor
    · have h1 := hrec.1
      rwa [List.append_assoc] at h1
    · intro x hx
      rcases List.mem_cons.mp hx with rfl | hx
      · exact hcT
      · exact hrec.2 x hx

theorem rootedChain_nodup (tasks : List TodoistTask) (hN : (taskIds tasks).Nodup)
    (r : TodoistTask) (hr : isRootTask tasks r = true) (hrT : r ∈ tasks)
    (ch : List TodoistTask) (hch : descChain tasks r ch) :
    (r :: ch).Nodup ∧ ∀ x ∈ ch, x ∈ tasks := by
  have h := chain_nodup_aux tasks hN ch [r] r hch (List.nodup_singleton r)
    (by intro x hx; rw [List.mem_singleton.mp hx]; exact hrT)
    (List.mem_singleton.mpr rfl)
    (by intro x hx; rw [List.mem_singleton.mp hx]; exact Or.inl hr)
    (by
      intro d hd hdq
      obtain ⟨_, hdRoot, _⟩ := childTasks_spec tasks r.id d hd
      rw [List.mem_singleton.mp hdq] at hdRoot
      rw [hr] at hdRoot
      cases hdRoot)
  exact ⟨by simpa using h.1, h.2⟩

theorem nodup_subset_length (q l : List TodoistTask) (hq : q.Nodup)
    (hsub : ∀ x ∈ q, x ∈ l) : q.length ≤ l.length := by
  have h1 : q.toFinset.card = q.length := List.toFinset_card_of_nodup hq
  have h2 : q.toFinset ⊆ l.toFinset := by
    intro a ha
    exact List.mem_toFinset.mpr (hsub a (List.mem_toFinset.mp ha))
  have h3 := Finset.card_le_card h2
  have h4 := l.toFinset_card_le
  omega

theorem root_chain_bound (tasks : List TodoistTask) (hN : (taskIds tasks).Nodup)
    (r : TodoistTask) (hr : isRootTask tasks r = true) (hrT : r ∈ tasks) :
    ∀ ch, descChain tasks r ch → ch.length < tasks.length := by
  intro ch hch
  obtain ⟨hnd, hsub⟩ := rootedChain_nodup tasks hN r hr hrT ch hch
  have := nodup_subset_length (r :: ch) tasks hnd (by
    intro x hx
    rcases List.mem_cons.mp hx with rfl | hx
    · exact hrT
    · exact hsub x hx)
  simpa [List.length_cons] using Nat.lt_of_succ_le this

theorem node_children_complete (tasks : List TodoistTask) (hN : (taskIds tasks).Nodup) :
    ∀ (fuel : Nat) (t : TodoistTask), t ∈ tasks →
      (∀ ch, descChain tasks t ch → ch.length < fuel) →
      ∀ n, buildNodeOfId tasks fuel t.id = some n →
      ∀ m ∈ n.subnodes,
        List.Perm (m.children.map TaskNode.task) (childTasks tasks m.task.id)
  | 0, t, _, hb, n, _ => absurd (hb [] trivial) (by omega)
  | fuel + 1, t, htT, hb, n, h => by
    rw [buildNodeOfId_succ, lastWithId_self tasks hN t htT] at h
    simp only [Option.map_some'] at h
    rw [← Option.some_inj.mp h]
    intro m hm
    rw [subnodes_eq] at hm
    rcases List.mem_cons.mp hm with rfl | hm
    · show List.Perm ((sortNodes _).map TaskNode.task) _
      have hp : List.Perm
          ((sortNodes ((childTasks tasks t.id).filterMap
            (fun c => buildNodeOfId tasks fuel c.id))).map TaskNode.task)
          (((childTasks tasks t.id).filterMap
            (fun c => buildNodeOfId tasks fuel c.id)).map TaskNode.task) :=
        (sortNodes_perm _).map _
      rw [filterMap_nodes_map_task tasks hN fuel (childTasks tasks t.id)
        (fun c hc => (childTasks_spec tasks t.id c hc).1)] at hp
      exact hp
    · obtain ⟨n', hn', hmsub⟩ := (mem_subnodesList m _).mp hm
      have hn'' := (sortNodes_perm _).mem_iff.mp hn'
      obtain ⟨c, hcChild, hnode⟩ := List.mem_filterMap.mp hn''
      have hcT : c ∈ tasks := (childTasks_spec tasks t.id c hcChild).1
      have hbc : ∀ ch, descChain tasks c ch → ch.length < fuel := by
        intro ch hch
        have h2 := hb (c :: ch) ⟨hcChild, hch⟩
        rw [List.length_cons] at h2
        omega
      exact node_children_complete tasks hN fuel c hcT hbc n' hnode m hmsub

theorem forest_children_complete (tasks : List TodoistTask) (hN : (taskIds tasks).Nodup) :
    ∀ m ∈ subnodesList (buildTaskTree tasks),
      List.Perm (m.children.map TaskNode.task) (childTasks tasks m.task.id) := by
  intro m hm
  rw [buildTaskTree] at hm
  obtain ⟨n', hn', hmsub⟩ := (mem_subnodesList m _).mp hm
  have hn'' := (sortNodes_perm _).mem_iff.mp hn'
  obtain ⟨r, hrF, hnode⟩ := List.mem_filterMap.mp hn''
  have hrT : r ∈ tasks := (List.mem_filter.mp hrF).1
  have hrRoot : isRootTask tasks r = true := (List.mem_filter.mp hrF).2
  exact node_children_complete tasks hN tasks.length r hrT
    (root_chain_bound tasks hN r hrRoot hrT) n' hnode m hmsub

/-! ## Claims about the tree builder -/

/-- The root condition of claim C1, amended with the JavaScript
truthiness case: no parent, an empty-string parent, or a parent id that
resolves to no task of the collection. -/
def promotedToRoot (tasks : List TodoistTask) (t : TodoistTask) : Prop :=
  t.parent_id = none ∨ t.parent_id = some "" ∨ ∀ u ∈ tasks, some u.id ≠ t.parent_id

theorem isRootTask_iff (tasks : List TodoistTask) (t : TodoistTask) :
    isRootTask tasks t = true ↔ promotedToRoot tasks t := by
  unfold isRootTask promotedToRoot
  cases hp : t.parent_id with
  | none => simp
  | some p =>
    constructor
    · intro h
      simp only [Bool.or_eq_true, beq_iff_eq, Bool.not_eq_true'] at h
      rcases h with rfl | h
      · exact Or.inr (Or.inl rfl)
      · refine Or.inr (Or.inr ?_)
        intro u hu he
        have hpmem : p ∈ taskIds tasks := List.mem_map.mpr ⟨u, hu, Option.some_inj.mp he⟩
        rw [← contains_iff_mem] at hpmem
        rw [h] at hpmem
        cases hpmem
    · intro h
      simp only [Bool.or_eq_true, beq_iff_eq, Bool.not_eq_true']
      rcases h with h | h | h
      · cases h
      · exact Or.inl (Option.some_inj.mp h)
      · right
        cases hq : (taskIds tasks).contains p with
        | false => rfl
        | true =>
          exfalso
          obtain ⟨u, hu, hup⟩ := List.mem_map.mp ((contains_iff_mem _ _).mp hq)
          exact h u hu (by rw [hup])

/-- Claim C1 counterexample: in the collection with a task of id `""`
and a task `"c"` whose `parent_id` is `""`, the parent id *does*
resolve to the id of a task of the collection, so the claim demands
that `"c"`'s node be appended as a child of the `""` node; but the
JavaScript truthiness test `!parentId` treats the empty string as "no
parent" and promotes `"c"` to a root: the forest has two childless
roots. -/
theorem c1_counterexample :
    (sampleTask "c" 0 (some "")).parent_id = some "" ∧
    ((taskIds [sampleTask "" 0 none, sampleTask "c" 0 (some "")]).contains "") = true ∧
    (taskIds [sampleTask "" 0 none, sampleTask "c" 0 (some "")]).Nodup ∧
    ((buildTaskTree [sampleTask "" 0 none, sampleTask "c" 0 (some "")]).map
      (fun n => n.task.id)) = ["", "c"] ∧
    (∀ n ∈ buildTaskTree [sampleTask "" 0 none, sampleTask "c" 0 (some "")],
      n.children.length = 0) := by
  refine ⟨by decide, by decide, by decide, by decide, by decide⟩

/-- Claim C1, amended: for every collection with pairwise-distinct ids
(the invariant the specification declares for every fetched
collection), a task's node is a root exactly when the task has no
`parent_id`, its `parent_id` is the empty string (JavaScript truthiness
— the amendment), or its `parent_id` does not resolve to the id of any
task of the collection; otherwise its node is appended as a child of
the node of its resolved parent.  In particular a task with a dangling
`parent_id` is promoted to root rather than dropped, and the children
of every node of the forest are exactly its resolved child tasks. -/
theorem c1_buildTaskTree_roots (tasks : List TodoistTask) (hN : (taskIds tasks).Nodup) :
    (∀ t ∈ tasks, ((∃ n ∈ buildTaskTree tasks, n.task = t) ↔ promotedToRoot tasks t)) ∧
    (∀ n ∈ subnodesList (buildTaskTree tasks),
      List.Perm (n.children.map TaskNode.task) (childTasks tasks n.task.id)) ∧
    (∀ t ∈ tasks, isRootTask tasks t = false → ∀ u ∈ tasks, t.parent_id = some u.id →
      ∀ n ∈ subnodesList (buildTaskTree tasks), n.task = u →
        ∃ c ∈ n.children, c.task = t) := by
  refine ⟨?_, forest_children_complete tasks hN, ?_⟩
  · intro t ht
    rw [← isRootTask_iff]
    constructor
    · rintro ⟨n, hn, rfl⟩
      rw [buildTaskTree] at hn
      have hmem := (sortNodes_perm _).mem_iff.mp hn
      obtain ⟨r, hrF, hnode⟩ := List.mem_filterMap.mp hmem
      have hlast := buildNodeOfId_task _ _ _ _ hnode
      have hr := lastWithId_mem _ _ _ hlast
      have : n.task = r :=
        id_inj tasks hN n.task hr.1 r (List.mem_filter.mp hrF).1 hr.2
      rw [this]
      exact (List.mem_filter.mp hrF).2
    · intro hroot
      obtain ⟨cs, hcs⟩ := buildNodeOfId_some tasks hN tasks.length t ht
      refine ⟨TaskNode.mk t cs, ?_, rfl⟩
      rw [buildTaskTree]
      exact (sortNodes_perm _).mem_iff.mpr
        (List.mem_filterMap.mpr ⟨t, List.mem_filter.mpr ⟨ht, hroot⟩, hcs⟩)
  · intro t ht hroot u hu hpar n hnsub hntask
    have hperm := forest_children_complete tasks hN n hnsub
    have hct : t ∈ childTasks tasks n.task.id := by
      rw [hntask]
      exact mem_childTasks tasks u.id t ht hroot hpar
    obtain ⟨c, hc, hctask⟩ := List.mem_map.mp (hperm.mem_iff.mpr hct)
    exact ⟨c, hc, hctask⟩

/-- Witness for C1 at a concrete collection: a root, a resolved child
and a task with a dangling parent reference. -/
theorem c1_buildTaskTree_roots_witness :
    (taskIds [sampleTask "1" 0 none, sampleTask "2" 0 (some "1"),
      sampleTask "3" 1 (some "zz")]).Nodup ∧
    ((∀ t ∈ [sampleTask "1" 0 none, sampleTask "2" 0 (some "1"),
        sampleTask "3" 1 (some "zz")],
      ((∃ n ∈ buildTaskTree [sampleTask "1" 0 none, sampleTask "2" 0 (some "1"),
          sampleTask "3" 1 (some "zz")], n.task = t) ↔
        promotedToRoot [sampleTask "1" 0 none, sampleTask "2" 0 (some "1"),
          sampleTask "3" 1 (some "zz")] t)) ∧
    (∀ n ∈ subnodesList (buildTaskTree [sampleTask "1" 0 none,
        sampleTask "2" 0 (some "1"), sampleTask "3" 1 (some "zz")]),
      List.Perm (n.children.map TaskNode.task)
        (childTasks [sampleTask "1" 0 none, sampleTask "2" 0 (some "1"),
          sampleTask "3" 1 (some "zz")] n.task.id)) ∧
    (∀ t ∈ [sampleTask "1" 0 none, sampleTask "2" 0 (some "1"),
        sampleTask "3" 1 (some "zz")],
      isRootTask [sampleTask "1" 0 none, sampleTask "2" 0 (some "1"),
        sampleTask "3" 1 (some "zz")] t = false →
      ∀ u ∈ [sampleTask "1" 0 none, sampleTask "2" 0 (some "1"),
        sampleTask "3" 1 (some "zz")], t.parent_id = some u.id →
      ∀ n ∈ subnodesList (buildTaskTree [sampleTask "1" 0 none,
        sampleTask "2" 0 (some "1"), sampleTask "3" 1 (some "zz")]), n.task = u →
        ∃ c ∈ n.children, c.task = t)) :=
  ⟨by decide,
    c1_buildTaskTree_roots [sampleTask "1" 0 none, sampleTask "2" 0 (some "1"),
      sampleTask "3" 1 (some "zz")] (by decide)⟩

/-! ## Ancestor chains, ranks and the counting argument for C5 -/

theorem tasks_nodup (tasks : List TodoistTask) (hN : (taskIds tasks).Nodup) :
    tasks.Nodup :=
  List.Nodup.of_map _ hN

theorem parentTaskOf_child (tasks : List TodoistTask) (y u : TodoistTask)
    (h : parentTaskOf tasks y = some u) :
    isRootTask tasks y = false ∧ y.parent_id = some u.id ∧ u ∈ tasks := by
  rw [parentTaskOf] at h
  cases hr : isRootTask tasks y with
  | true => rw [hr] at h; cases h
  | false =>
    rw [hr] at h
    simp only [Bool.false_eq_true, if_false] at h
    cases hp : y.parent_id with
    | none => rw [hp] at h; cases h
    | some p =>
      rw [hp] at h
      obtain ⟨huT, hup⟩ := lastWithId_mem tasks p u h
      refine ⟨rfl, ?_, huT⟩
      rw [hup]

theorem child_parentTaskOf (tasks : List TodoistTask) (hN : (taskIds tasks).Nodup)
    (t : TodoistTask) (htT : t ∈ tasks) (c : TodoistTask)
    (hc : c ∈ childTasks tasks t.id) : parentTaskOf tasks c = some t := by
  obtain ⟨_, hcRoot, hcPar⟩ := childTasks_spec tasks t.id c hc
  rw [parentTaskOf, hcRoot]
  simp only [Bool.false_eq_true, if_false]
  rw [hcPar]
  exact lastWithId_self tasks hN t htT

theorem parentTaskOf_root (tasks : List TodoistTask) (r : TodoistTask)
    (h : isRootTask tasks r = true) : parentTaskOf tasks r = none := by
  rw [parentTaskOf, h]
  rfl

theorem parentTaskOf_of_nonroot (tasks : List TodoistTask) (hN : (taskIds tasks).Nodup)
    (x : TodoistTask) (hx : isRootTask tasks x = false) :
    ∃ u, parentTaskOf tasks x = some u := by
  rw [parentTaskOf, hx]
  simp only [Bool.false_eq_true, if_false]
  cases hp : x.parent_id with
  | none => rw [isRootTask, hp] at hx; cases hx
  | some p =>
    rw [isRootTask, hp] at hx
    simp only [Bool.or_eq_true, Bool.not_eq_true', Bool.not_eq_true] at hx
    have hcont : (taskIds tasks).contains p = true := by
      cases hq : (taskIds tasks).contains p with
      | true => rfl
      | false => rw [hq] at hx; simp at hx
    obtain ⟨u, huT, hup⟩ := List.mem_map.mp ((contains_iff_mem _ _).mp hcont)
    refine ⟨u, ?_⟩
    show lastWithId tasks p = some u
    rw [← hup]
    exact lastWithId_self tasks hN u huT

theorem ancestorAt_zero (tasks : List TodoistTask) (x : TodoistTask) :
    ancestorAt tasks 0 x = some x := rfl

theorem ancestorAt_step (tasks : List TodoistTask) (k : Nat) (x u : TodoistTask)
    (h : parentTaskOf tasks x = some u) :
    ancestorAt tasks (k + 1) x = ancestorAt tasks k u := by
  rw [ancestorAt, h]

theorem ancestorAt_step_root (tasks : List TodoistTask) (k : Nat) (x : TodoistTask)
    (h : parentTaskOf tasks x = none) :
    ancestorAt tasks (k + 1) x = none := by
  rw [ancestorAt, h]

theorem ancestorAt_succ_far (tasks : List TodoistTask) :
    ∀ (k : Nat) (x : TodoistTask),
      ancestorAt tasks (k + 1) x = (ancestorAt tasks k x).bind (parentTaskOf tasks)
  | 0, x => by
    rw [ancestorAt_zero, Option.some_bind]
    cases hp : parentTaskOf tasks x with
    | none => rw [ancestorAt_step_root tasks 0 x hp]
    | some u => rw [ancestorAt_step tasks 0 x u hp, ancestorAt_zero]
  | k + 1, x => by
    cases hp : parentTaskOf tasks x with
    | none =>
      rw [ancestorAt_step_root tasks (k + 1) x hp, ancestorAt_step_root tasks k x hp]
      rfl
    | some u =>
      rw [ancestorAt_step tasks (k + 1) x u hp, ancestorAt_step tasks k x u hp]
      exact ancestorAt_succ_far tasks k u

theorem ancestorAt_add (tasks : List TodoistTask) :
    ∀ (a b : Nat) (x : TodoistTask),
      ancestorAt tasks (a + b) x = (ancestorAt tasks a x).bind (ancestorAt tasks b)
  | 0, b, x => by rw [Nat.zero_add, ancestorAt_zero]; rfl
  | a + 1, b, x => by
    rw [Nat.add_right_comm a 1 b]
    cases hp : parentTaskOf tasks x with
    | none =>
      rw [ancestorAt_step_root tasks (a + b) x hp, ancestorAt_step_root tasks a x hp]
      rfl
    | some u =>
      rw [ancestorAt_step tasks (a + b) x u hp, ancestorAt_step tasks a x u hp]
      exact ancestorAt_add tasks a b u

theorem rankOk_at (tasks : List TodoistTask) (rk : TodoistTask → Nat)
    (hrk : rankOk tasks rk = true) (x u : TodoistTask) (hx : x ∈ tasks)
    (hp : parentTaskOf tasks x = some u) : rk u < rk x := by
  have h := List.all_eq_true.mp hrk x hx
  rw [hp] at h
  exact of_decide_eq_true h

theorem ancestorAt_mem_rank (tasks : List TodoistTask) (rk : TodoistTask → Nat)
    (hrk : rankOk tasks rk = true) :
    ∀ (k : Nat) (x : TodoistTask), x ∈ tasks → ∀ y, ancestorAt tasks k x = some y →
      y ∈ tasks ∧ rk y + k ≤ rk x
  | 0, x, hx, y, h => by
    rw [ancestorAt_zero] at h
    rw [← Option.some_inj.mp h]
    exact ⟨hx, Nat.le_refl _⟩
  | k + 1, x, hx, y, h => by
    cases hp : parentTaskOf tasks x with
    | none => rw [ancestorAt_step_root tasks k x hp] at h; cases h
    | some u =>
      rw [ancestorAt_step tasks k x u hp] at h
      have huT : u ∈ tasks := (parentTaskOf_child tasks x u hp).2.2
      have hlt := rankOk_at tasks rk hrk x u hx hp
      obtain ⟨hyT, hle⟩ := ancestorAt_mem_rank tasks rk hrk k u huT y h
      exact ⟨hyT, by omega⟩

theorem no_reach_child (tasks : List TodoistTask) (hN : (taskIds tasks).Nodup)
    (rk : TodoistTask → Nat) (hrk : rankOk tasks rk = true)
    (t : TodoistTask) (htT : t ∈ tasks) (c : TodoistTask)
    (hc : c ∈ childTasks tasks t.id) (k : Nat)
    (h : ancestorAt tasks k t = some c) : False := by
  have hcT : c ∈ tasks := (childTasks_spec tasks t.id c hc).1
  have hpt : parentTaskOf tasks c = some t := child_parentTaskOf tasks hN t htT c hc
  have h1 : rk t < rk c := rankOk_at tasks rk hrk c t hcT hpt
  have h2 := (ancestorAt_mem_rank tasks rk hrk k t htT c h).2
  omega

theorem reach_child_unique_aux (tasks : List TodoistTask) (hN : (taskIds tasks).Nodup)
    (rk : TodoistTask → Nat) (hrk : rankOk tasks rk = true)
    (t : TodoistTask) (htT : t ∈ tasks) (x c1 c2 : TodoistTask)
    (hc1 : c1 ∈ childTasks tasks t.id) (hc2 : c2 ∈ childTasks tasks t.id)
    (k1 k2 : Nat) (hle : k1 ≤ k2)
    (h1 : ancestorAt tasks k1 x = some c1) (h2 : ancestorAt tasks k2 x = some c2) :
    c1 = c2 := by
  obtain ⟨d, rfl⟩ := Nat.le.dest hle
  rw [ancestorAt_add tasks k1 d x, h1, Option.some_bind] at h2
  cases d with
  | zero => exact Option.some_inj.mp h2
  | succ d =>
    exfalso
    have hpt : parentTaskOf tasks c1 = some t := child_parentTaskOf tasks hN t htT c1 hc1
    rw [ancestorAt_step tasks d c1 t hpt] at h2
    exact no_reach_child tasks hN rk hrk t htT c2 hc2 d h2

theorem reach_child_unique (tasks : List TodoistTask) (hN : (taskIds tasks).Nodup)
    (rk : TodoistTask → Nat) (hrk : rankOk tasks rk = true)
    (t : TodoistTask) (htT : t ∈ tasks) (x c1 c2 : TodoistTask)
    (hc1 : c1 ∈ childTasks tasks t.id) (hc2 : c2 ∈ childTasks tasks t.id)
    (k1 k2 : Nat)
    (h1 : ancestorAt tasks k1 x = some c1) (h2 : ancestorAt tasks k2 x = some c2) :
    c1 = c2 := by
  rcases Nat.le_total k1 k2 with h | h
  · exact reach_child_unique_aux tasks hN rk hrk t htT x c1 c2 hc1 hc2 k1 k2 h h1 h2
  · exact (reach_child_unique_aux tasks hN rk hrk t htT x c2 c1 hc2 hc1 k2 k1 h h2 h1).symm

theorem root_reach_unique_aux (tasks : List TodoistTask)
    (x r1 r2 : TodoistTask) (hr1 : isRootTask tasks r1 = true)
    (k1 k2 : Nat) (hle : k1 ≤ k2)
    (h1 : ancestorAt tasks k1 x = some r1) (h2 : ancestorAt tasks k2 x = some r2) :
    r1 = r2 := by
  obtain ⟨d, rfl⟩ := Nat.le.dest hle
  rw [ancestorAt_add tasks k1 d x, h1, Option.some_bind] at h2
  cases d with
  | zero => exact Option.some_inj.mp h2
  | succ d =>
    rw [ancestorAt_step_root tasks d r1 (parentTaskOf_root tasks r1 hr1)] at h2
    cases h2

theorem root_reach_unique (tasks : List TodoistTask)
    (x r1 r2 : TodoistTask) (hr1 : isRootTask tasks r1 = true)
    (hr2 : isRootTask tasks r2 = true) (k1 k2 : Nat)
    (h1 : ancestorAt tasks k1 x = some r1) (h2 : ancestorAt tasks k2 x = some r2) :
    r1 = r2 := by
  rcases Nat.le_total k1 k2 with h | h
  · exact root_reach_unique_aux tasks x r1 r2 hr1 k1 k2 h h1 h2
  · exact (root_reach_unique_aux tasks x r2 r1 hr2 k2 k1 h h2 h1).symm

theorem root_reach_exists_aux (tasks : List TodoistTask) (hN : (taskIds tasks).Nodup)
    (rk : TodoistTask → Nat) (hrk : rankOk tasks rk = true) :
    ∀ (N : Nat) (x : TodoistTask), x ∈ tasks → rk x < N →
      ∃ r, r ∈ tasks ∧ isRootTask tasks r = true ∧ ∃ k, ancestorAt tasks k x = some r
  | 0, _, _, hlt => absurd hlt (by omega)
  | N + 1, x, hx, hlt => by
    cases hroot : isRootTask tasks x with
    | true => exact ⟨x, hx, hroot, 0, ancestorAt_zero tasks x⟩
    | false =>
      obtain ⟨u, hpu⟩ := parentTaskOf_of_nonroot tasks hN x hroot
      have huT : u ∈ tasks := (parentTaskOf_child tasks x u hpu).2.2
      have hult : rk u < N := by
        have := rankOk_at tasks rk hrk x u hx hpu
        omega
      obtain ⟨r, hrT, hrRoot, k, hk⟩ := root_reach_exists_aux tasks hN rk hrk N u huT hult
      exact ⟨r, hrT, hrRoot, k + 1, by rw [ancestorAt_step tasks k x u hpu]; exact hk⟩

theorem root_reach_exists (tasks : List TodoistTask) (hN : (taskIds tasks).Nodup)
    (rk : TodoistTask → Nat) (hrk : rankOk tasks rk = true)
    (x : TodoistTask) (hx : x ∈ tasks) :
    ∃ r, r ∈ tasks ∧ isRootTask tasks r = true ∧ ∃ k, ancestorAt tasks k x = some r :=
  root_reach_exists_aux tasks hN rk hrk (rk x + 1) x hx (by omega)

theorem count_forest_aux (tasks : List TodoistTask) (fuel : Nat) (x : TodoistTask)
    (P : TodoistTask → Prop) :
    ∀ sub : List TodoistTask,
      (∀ c ∈ sub, ∀ n, buildNodeOfId tasks fuel c.id = some n →
        (P c → n.allTasks.count x = 1) ∧ (¬ P c → n.allTasks.count x = 0)) →
      (∀ c ∈ sub, (buildNodeOfId tasks fuel c.id).isSome = true) →
      sub.Pairwise (fun a b => ¬(P a ∧ P b)) →
      ((∃ c ∈ sub, P c) →
        (forestTasks (sub.filterMap (fun c => buildNodeOfId tasks fuel c.id))).count x = 1) ∧
      ((∀ c ∈ sub, ¬ P c) →
        (forestTasks (sub.filterMap (fun c => buildNodeOfId tasks fuel c.id))).count x = 0)
  | [], _, _, _ => by
    constructor
    · rintro ⟨c, hc, _⟩
      cases hc
    · intro _
      rfl
  | c :: rest, hcount, hsome, hpw => by
    obtain ⟨n, hcs⟩ := Option.isSome_iff_exists.mp (hsome c (List.mem_cons_self ..))
    rw [@List.filterMap_cons_some _ _ (fun d => buildNodeOfId tasks fuel d.id) c rest _ hcs,
      forestTasks_cons]
    have ih := count_forest_aux tasks fuel x P rest
      (fun d hd => hcount d (List.mem_cons_of_mem _ hd))
      (fun d hd => hsome d (List.mem_cons_of_mem _ hd))
      (List.Pairwise.of_cons hpw)
    rw [List.count_append]
    by_cases hP : P c
    · have hhead : n.allTasks.count x = 1 := (hcount c (List.mem_cons_self ..) n hcs).1 hP
      have hrest : (forestTasks (rest.filterMap
          (fun d => buildNodeOfId tasks fuel d.id))).count x = 0 := by
        apply ih.2
        intro d hd hPd
        exact (List.rel_of_pairwise_cons hpw hd) ⟨hP, hPd⟩
      constructor
      · intro _
        omega
      · intro hall
        exact absurd hP (hall c (List.mem_cons_self ..))
    · have hhead : n.allTasks.count x = 0 := (hcount c (List.mem_cons_self ..) n hcs).2 hP
      constructor
      · rintro ⟨d, hd, hPd⟩
        rcases List.mem_cons.mp hd with rfl | hd
        · exact absurd hPd hP
        · have := ih.1 ⟨d, hd, hPd⟩
          omega
      · intro hall
        have := ih.2 (fun d hd => hall d (List.mem_cons_of_mem _ hd))
        omega

theorem subtree_count (tasks : List TodoistTask) (hN : (taskIds tasks).Nodup)
    (rk : TodoistTask → Nat) (hrk : rankOk tasks rk = true) (x : TodoistTask)
    (hx : x ∈ tasks) :
    ∀ (fuel : Nat) (t : TodoistTask), t ∈ tasks →
      (∀ ch, descChain tasks t ch → ch.length < fuel) →
      ∀ n, buildNodeOfId tasks fuel t.id = some n →
      ((∃ k, ancestorAt tasks k x = some t) → n.allTasks.count x = 1) ∧
      ((∀ k, ancestorAt tasks k x ≠ some t) → n.allTasks.count x = 0)
  | 0, t, _, hb, n, _ => absurd (hb [] trivial) (by omega)
  | fuel + 1, t, htT, hb, n, h => by
    rw [buildNodeOfId_succ, lastWithId_self tasks hN t htT] at h
    simp only [Option.map_some'] at h
    rw [← Option.some_inj.mp h]
    rw [allTasks_eq, List.count_cons]
    have hforest : (forestTasks (sortNodes ((childTasks tasks t.id).filterMap
        (fun c => buildNodeOfId tasks fuel c.id)))).count x =
        (forestTasks ((childTasks tasks t.id).filterMap
        (fun c => buildNodeOfId tasks fuel c.id))).count x :=
      (forestTasks_perm (sortNodes_perm _)).count_eq x
    rw [hforest]
    have haux := count_forest_aux tasks fuel x
      (fun c => ∃ k, ancestorAt tasks k x = some c) (childTasks tasks t.id)
      (by
        intro c hc m hm
        obtain ⟨hcT, _, _⟩ := childTasks_spec tasks t.id c hc
        have hbc : ∀ ch, descChain tasks c ch → ch.length < fuel := by
          intro ch hch
          have h2 := hb (c :: ch) ⟨hc, hch⟩
          rw [List.length_cons] at h2
          omega
        have hrec := subtree_count tasks hN rk hrk x hx fuel c hcT hbc m hm
        exact ⟨hrec.1, fun hn => hrec.2 (fun k hk => hn ⟨k, hk⟩)⟩)
      (by
        intro c hc
        obtain ⟨hcT, _, _⟩ := childTasks_spec tasks t.id c hc
        obtain ⟨cs, hcs⟩ := buildNodeOfId_some tasks hN fuel c hcT
        rw [hcs]
        rfl)
      (by
        have hnd : (childTasks tasks t.id).Pairwise (fun a b => a ≠ b) :=
          (tasks_nodup tasks hN).filter _
        refine hnd.imp_of_mem ?_
        rintro a b ha hb_ hne ⟨⟨k1, hk1⟩, ⟨k2, hk2⟩⟩
        exact hne (reach_child_unique tasks hN rk hrk t htT x a b ha hb_ k1 k2 hk1 hk2))
    constructor
    · rintro ⟨k, hk⟩
      by_cases hxt : x = t
      · rw [if_pos (beq_iff_eq.mpr hxt.symm)]
        have hz := haux.2 (by
          rintro c hc ⟨k2, hk2⟩
          rw [hxt] at hk2
          exact no_reach_child tasks hN rk hrk t htT c hc k2 hk2)
        omega
      · rw [if_neg (fun he => hxt (beq_iff_eq.mp he).symm)]
        cases k with
        | zero =>
          rw [ancestorAt_zero] at hk
          exact absurd (Option.some_inj.mp hk) hxt
        | succ k =>
          rw [ancestorAt_succ_far] at hk
          cases hy : ancestorAt tasks k x with
          | none => rw [hy] at hk; cases hk
          | some y =>
            rw [hy] at hk
            have hpy : parentTaskOf tasks y = some t := hk
            obtain ⟨hyRoot, hyPar, _⟩ := parentTaskOf_child tasks y t hpy
            have hyT : y ∈ tasks :=
              (ancestorAt_mem_rank tasks rk hrk k x hx y hy).1
            have hyc : y ∈ childTasks tasks t.id :=
              mem_childTasks tasks t.id y hyT hyRoot hyPar
            have h1 := haux.1 ⟨y, hyc, k, hy⟩
            omega
    · intro hall
      have hxt : ¬ (x = t) := fun he => hall 0 (by rw [ancestorAt_zero, he])
      rw [if_neg (fun he => hxt (beq_iff_eq.mp he).symm)]
      have hz := haux.2 (by
        rintro c hc ⟨k, hk⟩
        have hpc : parentTaskOf tasks c = some t := child_parentTaskOf tasks hN t htT c hc
        have : ancestorAt tasks (k + 1) x = some t := by
          rw [ancestorAt_succ_far, hk]
          exact hpc
        exact hall (k + 1) this)
      omega

theorem allTasks_subset (tasks : List TodoistTask) :
    ∀ (fuel : Nat) (i : String) (n : TaskNode), buildNodeOfId tasks fuel i = some n →
      ∀ y ∈ n.allTasks, y ∈ tasks
  | 0, i, n, h => by
    rw [buildNodeOfId_zero] at h
    cases hq : lastWithId tasks i with
    | none => rw [hq] at h; cases h
    | some u =>
      rw [hq] at h
      simp only [Option.map_some'] at h
      rw [← Option.some_inj.mp h]
      intro y hy
      rw [allTasks_eq] at hy
      rcases List.mem_cons.mp hy with rfl | hy
      · exact (lastWithId_mem tasks i y hq).1
      · cases hy
  | fuel + 1, i, n, h => by
    rw [buildNodeOfId_succ] at h
    cases hq : lastWithId tasks i with
    | none => rw [hq] at h; cases h
    | some u =>
      rw [hq] at h
      simp only [Option.map_some'] at h
      rw [← Option.some_inj.mp h]
      intro y hy
      rw [allTasks_eq] at hy
      rcases List.mem_cons.mp hy with rfl | hy
      · exact (lastWithId_mem tasks i y hq).1
      · obtain ⟨m, hm, hym⟩ := (mem_forestTasks y _).mp hy
        have hm' := (sortNodes_perm _).mem_iff.mp hm
        obtain ⟨c, _, hnode⟩ := List.mem_filterMap.mp hm'
        exact allTasks_subset tasks fuel c.id m hnode y hym

theorem forestTasks_subset (tasks : List TodoistTask) :
    ∀ x ∈ forestTasks (buildTaskTree tasks), x ∈ tasks := by
  intro x hx
  rw [buildTaskTree] at hx
  obtain ⟨n, hn, hxn⟩ := (mem_forestTasks x _).mp hx
  have hn' := (sortNodes_perm _).mem_iff.mp hn
  obtain ⟨r, _, hnode⟩ := List.mem_filterMap.mp hn'
  exact allTasks_subset tasks tasks.length r.id n hnode x hxn

/-- Claim C5 counterexample: two tasks whose `parentId` references form
a cycle.  Ids are pairwise distinct and the collection has two tasks,
yet neither passes the root test, so `buildTaskTree` returns the empty
forest and both tasks appear in no node at all — "every task appears in
exactly one node" fails without an acyclicity assumption. -/
theorem c5_counterexample :
    (taskIds [sampleTask "a" 0 (some "b"), sampleTask "b" 0 (some "a")]).Nodup ∧
    [sampleTask "a" 0 (some "b"), sampleTask "b" 0 (some "a")].length = 2 ∧
    forestTasks (buildTaskTree
      [sampleTask "a" 0 (some "b"), sampleTask "b" 0 (some "a")]) = [] := by
  refine ⟨by decide, by decide, by decide⟩

/-- Claim C5, amended: `buildTaskTree []` is the empty forest; the
tasks of the forest always come from the input collection; and for
every collection whose ids are pairwise distinct and whose
resolved-parent relation is acyclic (witnessed by a rank function that
strictly decreases from child to parent — the amendment, as a parent
cycle silently drops its tasks), the tasks of the forest are a
permutation of the input collection: every task appears in exactly one
node and the total node count equals the input count. -/
theorem c5_buildTaskTree_complete :
    buildTaskTree [] = [] ∧
    (∀ (tasks : List TodoistTask), ∀ x ∈ forestTasks (buildTaskTree tasks), x ∈ tasks) ∧
    (∀ (tasks : List TodoistTask) (rk : TodoistTask → Nat),
      (taskIds tasks).Nodup → rankOk tasks rk = true →
      List.Perm (forestTasks (buildTaskTree tasks)) tasks) := by
  refine ⟨rfl, forestTasks_subset, ?_⟩
  intro tasks rk hN hrk
  apply List.perm_iff_count.mpr
  intro x
  by_cases hx : x ∈ tasks
  · rw [List.count_eq_one_of_mem (tasks_nodup tasks hN) hx, buildTaskTree,
      (forestTasks_perm (sortNodes_perm _)).count_eq x]
    apply (count_forest_aux tasks tasks.length x
      (fun r => ∃ k, ancestorAt tasks k x = some r) (tasks.filter (isRootTask tasks))
      (by
        intro r hr n hn
        have hrT : r ∈ tasks := (List.mem_filter.mp hr).1
        have hrRoot : isRootTask tasks r = true := (List.mem_filter.mp hr).2
        have hrec := subtree_count tasks hN rk hrk x hx tasks.length r hrT
          (root_chain_bound tasks hN r hrRoot hrT) n hn
        exact ⟨hrec.1, fun hn2 => hrec.2 (fun k hk => hn2 ⟨k, hk⟩)⟩)
      (by
        intro r hr
        obtain ⟨cs, hcs⟩ :=
          buildNodeOfId_some tasks hN tasks.length r (List.mem_filter.mp hr).1
        rw [hcs]
        rfl)
      (by
        have hnd : (tasks.filter (isRootTask tasks)).Pairwise (fun a b => a ≠ b) :=
          (tasks_nodup tasks hN).filter _
        refine hnd.imp_of_mem ?_
        rintro a b ha hb hne ⟨⟨k1, hk1⟩, ⟨k2, hk2⟩⟩
        exact hne (root_reach_unique tasks x a b (List.mem_filter.mp ha).2
          (List.mem_filter.mp hb).2 k1 k2 hk1 hk2))).1
    obtain ⟨r, hrT, hroot, k, hk⟩ := root_reach_exists tasks hN rk hrk x hx
    exact ⟨r, List.mem_filter.mpr ⟨hrT, hroot⟩, k, hk⟩
  · rw [List.count_eq_zero.mpr hx,
      List.count_eq_zero.mpr (fun hmem => hx (forestTasks_subset tasks x hmem))]

/-- Witness for C5 at a concrete acyclic collection: a root task and
one subtask, with the rank function sending the root to 0 and the
child to 1. -/
theorem c5_buildTaskTree_complete_witness :
    (taskIds [sampleTask "1" 0 none, sampleTask "2" 0 (some "1")]).Nodup ∧
    rankOk [sampleTask "1" 0 none, sampleTask "2" 0 (some "1")]
      (fun t => if t.id = "1" then 0 else 1) = true ∧
    List.Perm
      (forestTasks (buildTaskTree [sampleTask "1" 0 none, sampleTask "2" 0 (some "1")]))
      [sampleTask "1" 0 none, sampleTask "2" 0 (some "1")] :=
  ⟨by decide, by decide,
    c5_buildTaskTree_complete.2.2 [sampleTask "1" 0 none, sampleTask "2" 0 (some "1")]
      (fun t => if t.id = "1" then 0 else 1) (by decide) (by decide)⟩

end TodoistDeepsync
